import Mathlib

/-!
# Verification of `ethos-guard-ml` (`audit_logger_core.py`)

A shallow embedding of the `EthosAuditLogger` class and theorems checking the
natural-language specification against it.

Modelling conventions:
* Python values that flow through `json.dumps` are modelled by the inductive
  type `JVal` (null, booleans, integers, strings, lists, string-keyed dicts).
  Floats are outside the model.
* A Python `dict` is a `List (String × JVal)` in insertion order; Python
  guarantees the keys are distinct.
* `json.dumps(entry, sort_keys=True)` (default separators `", "` / `": "`,
  `ensure_ascii=True`) is embedded as `jsonDumpsSorted`, a character-exact
  serializer that sorts keys at every nesting level.
* `hashlib.sha256(...).hexdigest()` is idealized as an injective digest
  function of the serialized bytes (`sha256Hex`): collision resistance of
  SHA-256 is assumed, so the digest is modelled by the canonical input itself.
* `time.time()` is ambient input: the operations take the current clock
  reading as an explicit argument.
-/

namespace EthosGuard

/-- JSON-serializable Python values (the universe `json.dumps` accepts here,
floats excluded). Dicts are insertion-ordered association lists with `String`
keys, as in Python. -/
inductive JVal where
  | jnull : JVal
  | jbool : Bool → JVal
  | jnum : Int → JVal
  | jstr : String → JVal
  | jarr : List JVal → JVal
  | jobj : List (String × JVal) → JVal

/-! ## Lexicographic string order (Python `<` on `str`, by code points) -/

/-- Code-point lexicographic `≤` on character lists: how Python compares the
`str` keys that `sort_keys=True` sorts. -/
def lexLe : List Char → List Char → Bool
  | [], _ => true
  | _ :: _, [] => false
  | a :: as, b :: bs =>
    if a.toNat < b.toNat then true
    else if b.toNat < a.toNat then false
    else lexLe as bs

/-- Key comparison used by `sort_keys=True`: compare the key strings. -/
def keyLe (p q : String × JVal) : Bool := lexLe p.1.data q.1.data

/-- Insert a pair into a key-sorted list of pairs (insertion-sort step). -/
def orderedInsertKey (p : String × JVal) : List (String × JVal) → List (String × JVal)
  | [] => [p]
  | q :: rest => if keyLe p q then p :: q :: rest else q :: orderedInsertKey p rest

/-- Sort a dict's pairs by key, as `sort_keys=True` does. -/
def sortFields : List (String × JVal) → List (String × JVal)
  | [] => []
  | p :: rest => orderedInsertKey p (sortFields rest)

/-! ## Decimal rendering of integers (Python `str(int)` / JSON number output) -/

/-- Hexadecimal digit characters, lowercase as CPython's JSON encoder emits. -/
def hexDigit (n : Nat) : Char :=
  match n with
  | 0 => '0' | 1 => '1' | 2 => '2' | 3 => '3' | 4 => '4'
  | 5 => '5' | 6 => '6' | 7 => '7' | 8 => '8' | 9 => '9'
  | 10 => 'a' | 11 => 'b' | 12 => 'c' | 13 => 'd' | 14 => 'e'
  | _ => 'f'

/-- Little-endian decimal digits of `n`, with explicit fuel for structural
recursion; `fuel ≥ n` suffices. -/
def natCharsAux : Nat → Nat → List Char
  | 0, _ => []
  | fuel + 1, n => if n = 0 then [] else hexDigit (n % 10) :: natCharsAux fuel (n / 10)

/-- Decimal rendering of a natural number, as Python prints it. -/
def natChars (n : Nat) : List Char :=
  if n = 0 then ['0'] else (natCharsAux n n).reverse

/-- Decimal rendering of an integer, as Python prints it (`-` sign prefix). -/
def intChars (i : Int) : List Char :=
  if i < 0 then '-' :: natChars i.natAbs else natChars i.natAbs

/-- Numeric value of a decimal digit character (inverse of `hexDigit` below
10). -/
def digitVal (c : Char) : Nat := c.toNat - 48

/-- Value of a little-endian list of decimal digit characters. -/
def fromLE : List Char → Nat
  | [] => 0
  | c :: cs => digitVal c + 10 * fromLE cs

/-- Characters that may occur in a serialized integer. -/
def IsNumChar (c : Char) : Prop := c = '-' ∨ (48 ≤ c.toNat ∧ c.toNat ≤ 57)

/-! ## JSON string escaping (CPython `json`, `ensure_ascii=True`) -/

/-- Four lowercase hex digits of `n < 0x10000`, as in a `\uXXXX` escape. -/
def hex4 (n : Nat) : List Char :=
  [hexDigit (n / 4096 % 16), hexDigit (n / 256 % 16), hexDigit (n / 16 % 16), hexDigit (n % 16)]

/-- CPython's JSON escaping of one character under `ensure_ascii=True`:
`"` and `\` and the five short control escapes, `\uXXXX` for other characters
outside `0x20`–`0x7e`, and a UTF-16 surrogate pair for code points above
`0xffff`. -/
def escChar (c : Char) : List Char :=
  if c = '"' then ['\\', '"']
  else if c = '\\' then ['\\', '\\']
  else if c.toNat = 8 then ['\\', 'b']
  else if c.toNat = 9 then ['\\', 't']
  else if c.toNat = 10 then ['\\', 'n']
  else if c.toNat = 12 then ['\\', 'f']
  else if c.toNat = 13 then ['\\', 'r']
  else if c.toNat < 0x20 then '\\' :: 'u' :: hex4 c.toNat
  else if c.toNat < 0x7f then [c]
  else if c.toNat < 0x10000 then '\\' :: 'u' :: hex4 c.toNat
  else
    ('\\' :: 'u' :: hex4 (0xd800 + (c.toNat - 0x10000) / 0x400)) ++
    ('\\' :: 'u' :: hex4 (0xdc00 + (c.toNat - 0x10000) % 0x400))

/-- The short two-character escapes of `escChar`, as a partial map: the
escaped character each of `" \ \b \t \n \f \r` stands for. -/
def shortEsc (c : Char) : Option Char :=
  if c = '"' then some '"'
  else if c = '\\' then some '\\'
  else if c.toNat = 8 then some 'b'
  else if c.toNat = 9 then some 't'
  else if c.toNat = 10 then some 'n'
  else if c.toNat = 12 then some 'f'
  else if c.toNat = 13 then some 'r'
  else none

/-- Escape a whole string body (the part between the quotes). -/
def escBody : List Char → List Char
  | [] => []
  | c :: cs => escChar c ++ escBody cs

/-- A JSON string literal: quoted escaped body. -/
def quoteChars (s : String) : List Char :=
  '"' :: (escBody s.data ++ ['"'])

/-! ## The serializer (printer part of `json.dumps`, default separators) -/

mutual

/-- Character-exact JSON printing of a value, with dict pairs printed in the
order given (sorting is done beforehand by `canonSort`). Separators are the
`json.dumps` defaults `", "` and `": "`. -/
def ser : JVal → List Char
  | .jnull => ['n', 'u', 'l', 'l']
  | .jbool true => ['t', 'r', 'u', 'e']
  | .jbool false => ['f', 'a', 'l', 's', 'e']
  | .jnum n => intChars n
  | .jstr s => quoteChars s
  | .jarr xs => '[' :: (serItems xs ++ [']'])
  | .jobj fs => '{' :: (serFields fs ++ ['}'])

/-- Array items joined by `", "`. -/
def serItems : List JVal → List Char
  | [] => []
  | [x] => ser x
  | x :: y :: rest => ser x ++ ',' :: ' ' :: serItems (y :: rest)

/-- Dict pairs joined by `", "`. -/
def serFields : List (String × JVal) → List Char
  | [] => []
  | [p] => serPair p
  | p :: q :: rest => serPair p ++ ',' :: ' ' :: serFields (q :: rest)

/-- One dict pair: quoted key, `": "`, value. -/
def serPair : String × JVal → List Char
  | (k, v) => quoteChars k ++ ':' :: ' ' :: ser v

end

/-- Coarse constructor class of a value, readable off the first serialized
character. -/
def kindOf : JVal → Nat
  | .jnull => 0
  | .jbool _ => 1
  | .jnum _ => 2
  | .jstr _ => 3
  | .jarr _ => 4
  | .jobj _ => 5

/-- Constructor class a serialized first character belongs to. -/
def headKindChar (c : Char) : Nat :=
  if c = 'n' then 0
  else if c = 'f' then 1
  else if c = 't' then 1
  else if c = '"' then 3
  else if c = '[' then 4
  else if c = '{' then 5
  else 2

/-- What may legally follow a complete serialized value: the end of input or
a separator/closer, never a character that could extend a number. -/
def DelimNext (r : List Char) : Prop :=
  r = [] ∨ ∃ t, r = ',' :: t ∨ r = ']' :: t ∨ r = '}' :: t

mutual

/-- Recursively sort every dict's pairs by key: the traversal order
`json.dumps(..., sort_keys=True)` serializes in. -/
def canonSort : JVal → JVal
  | .jobj fs => .jobj (sortFields (canonSortFields fs))
  | .jarr xs => .jarr (canonSortList xs)
  | v => v

/-- Map `canonSort` over array elements. -/
def canonSortList : List JVal → List JVal
  | [] => []
  | x :: xs => canonSort x :: canonSortList xs

/-- Map `canonSort` over dict values. -/
def canonSortFields : List (String × JVal) → List (String × JVal)
  | [] => []
  | (k, v) :: rest => (k, canonSort v) :: canonSortFields rest

end

/-- Model of `json.dumps(v, sort_keys=True)`: print with every dict key-sorted. -/
def jsonDumpsSorted (v : JVal) : String :=
  String.mk (ser (canonSort v))

/-- Modelled: `hashlib.sha256(s.encode('utf-8')).hexdigest()`, idealized as an
injective digest of the input (SHA-256 collision resistance assumed); the
digest is represented by the canonical input string itself. -/
def sha256Hex (s : String) : String := s

/-- Embeds `EthosAuditLogger._generate_verifiable_hash`: hash of the canonicalized
JSON string of the entry. -/
def generateVerifiableHash (entry : JVal) : String :=
  sha256Hex (jsonDumpsSorted entry)

/-! ## Log entries and the logger state -/

/-- A log entry: the dict `_create_log_entry` builds, with its six fixed keys
as named fields. `timestamp` is `int(time.time() * 1000)`. -/
structure Entry where
  timestamp : Int
  model_id : String
  input_data : JVal
  prediction_output : JVal
  sensitive_group : String
  hash : String

/-- The dict an `Entry` denotes, pairs in the construction order of
`_create_log_entry`. -/
def entryJ (e : Entry) : JVal :=
  .jobj [("timestamp", .jnum e.timestamp),
         ("model_id", .jstr e.model_id),
         ("input_data", e.input_data),
         ("prediction_output", e.prediction_output),
         ("sensitive_group", .jstr e.sensitive_group),
         ("hash", .jstr e.hash)]

/-- The digest `_generate_verifiable_hash` assigns to an entry dict. -/
def entryHash (e : Entry) : String :=
  generateVerifiableHash (entryJ e)

/-- The mutable state of an `EthosAuditLogger` instance. -/
structure LoggerState where
  model_id : String
  audit_log : List Entry

/-- Embeds `EthosAuditLogger.__init__`. -/
def initLogger (model_id : String) : LoggerState :=
  { model_id := model_id, audit_log := [] }

/-- Embeds `EthosAuditLogger._create_log_entry`: the standardized entry with the hash
placeholder `""`; `now` is `int(time.time() * 1000)` at call time. -/
def createLogEntry (st : LoggerState) (now : Int) (input_data : JVal)
    (prediction : JVal) (user_group : String) : Entry :=
  { timestamp := now
    model_id := st.model_id
    input_data := input_data
    prediction_output := prediction
    sensitive_group := user_group
    hash := "" }

/-- Embeds `EthosAuditLogger.log_prediction`: build the entry, seal it with the hash
computed over the entry while its hash field is still `""`, and append it to
the audit log. Returns the new state and the appended entry. -/
def logPrediction (st : LoggerState) (now : Int) (input_data : JVal)
    (prediction : JVal) (user_group : String) : LoggerState × Entry :=
  let entry0 := createLogEntry st now input_data prediction user_group
  let entry := { entry0 with hash := entryHash entry0 }
  ({ st with audit_log := st.audit_log ++ [entry] }, entry)

/-! ## `run_drift_check` -/

/-- The comparison one iteration of the hash-integrity loop performs: clear
the hash on a copy of the entry (`entry_copy = entry.copy();
entry_copy["hash"] = ""`) and compare the recomputed digest with the stored
one. -/
def entryIntact (e : Entry) : Bool :=
  e.hash = entryHash { e with hash := "" }

/-- The hash-integrity loop of `run_drift_check`, with the store tracked
explicitly: each iteration applies its writes to `entry_copy` only, and the
entry put back into the store is the untouched `entry`. Returns the loop's
boolean outcome (`false` = early `return False`) and the store as left by the
loop. -/
def hashCheckLoop : List Entry → Bool × List Entry
  | [] => (true, [])
  | entry :: rest =>
    let stored_hash := entry.hash
    let entry_copy : Entry := { entry with hash := "" }
    let re_calculated_hash := entryHash entry_copy
    if stored_hash = re_calculated_hash then
      let (ok, rest') := hashCheckLoop rest
      (ok, entry :: rest')
    else
      (false, entry :: rest)

/-- Indices at which the loop's mismatch branch executes (the iterations that
print `INTEGRITY FAILURE`): the loop returns at the first mismatch, so at most
one index is ever reported. -/
def reportedFailuresAux (i : Nat) : List Entry → List Nat
  | [] => []
  | entry :: rest =>
    if entryIntact entry then reportedFailuresAux (i + 1) rest else [i]

/-- Indices reported as integrity failures by one `run_drift_check` call. -/
def reportedFailures (logs : List Entry) : List Nat :=
  reportedFailuresAux 0 logs

/-! ### The drift/bias tally (stage 2 of `run_drift_check`) -/

/-- Association-list lookup: Python `d[k]` / `k in d`. -/
def alGet {α : Type} : List (String × α) → String → Option α
  | [], _ => none
  | (k, v) :: rest, key => if k = key then some v else alGet rest key

/-- Association-list store: Python `d[k] = v` (updates in place, or appends a
new key at the end, preserving insertion order). -/
def alSet {α : Type} : List (String × α) → String → α → List (String × α)
  | [], key, v => [(key, v)]
  | (k, w) :: rest, key, v =>
    if k = key then (k, v) :: rest else (k, w) :: alSet rest key v

mutual

/-- Python `repr()` of a value (single-quoted strings), as far as the
container cases of `pyStr` need it. -/
def pyRepr (v : JVal) : List Char :=
  match v with
  | .jnull => ['N', 'o', 'n', 'e']
  | .jbool true => ['T', 'r', 'u', 'e']
  | .jbool false => ['F', 'a', 'l', 's', 'e']
  | .jnum n => intChars n
  | .jstr s => '\'' :: (s.data ++ ['\''])
  | .jarr xs => '[' :: (pyReprItems xs ++ [']'])
  | .jobj fs => '{' :: (pyReprPairs fs ++ ['}'])

/-- Comma-separated `repr`s of list items. -/
def pyReprItems : List JVal → List Char
  | [] => []
  | [x] => pyRepr x
  | x :: y :: rest => pyRepr x ++ ',' :: ' ' :: pyReprItems (y :: rest)

/-- Comma-separated `repr`s of dict pairs (`{'k': v}` form). -/
def pyReprPairs : List (String × JVal) → List Char
  | [] => []
  | [(k, v)] => '\'' :: (k.data ++ '\'' :: ':' :: ' ' :: pyRepr v)
  | (k, v) :: q :: rest =>
    ('\'' :: (k.data ++ '\'' :: ':' :: ' ' :: pyRepr v)) ++ ',' :: ' ' :: pyReprPairs (q :: rest)

end

/-- Python `str()` of a prediction value, used as the tally key
(`pred_key = str(prediction)`). Exact for `None`/booleans/ints/strings
(`str` of a string is the string itself, unquoted); containers fall back to
`repr`. -/
def pyStr (v : JVal) : String :=
  match v with
  | .jnull => "None"
  | .jbool true => "True"
  | .jbool false => "False"
  | .jnum n => String.mk (intChars n)
  | .jstr s => s
  | .jarr xs => String.mk (pyRepr (.jarr xs))
  | .jobj fs => String.mk (pyRepr (.jobj fs))

/-- One iteration of the tally loop:
`prediction_counts[group][str(prediction)] += 1` with missing keys defaulting
to `{}` / `0`. -/
def bumpCount (counts : List (String × List (String × Nat))) (group predKey : String) :
    List (String × List (String × Nat)) :=
  let inner := (alGet counts group).getD []
  alSet counts group (alSet inner predKey (((alGet inner predKey).getD 0) + 1))

/-- The tally loop of `run_drift_check` stage 2, left to right over the
records. -/
def driftLoop (acc : List (String × List (String × Nat))) :
    List Entry → List (String × List (String × Nat))
  | [] => acc
  | entry :: rest => driftLoop (bumpCount acc entry.sensitive_group (pyStr entry.prediction_output)) rest

/-- The prediction-count summary stage 2 builds. -/
def driftSummary (logs : List Entry) : List (String × List (String × Nat)) :=
  driftLoop [] logs

/-- Outcome of `run_drift_check`: `integrityFailure` is the early
`return False`; `report` carries the `prediction_counts` summary the
fall-through path computes (the function then returns `None`). -/
inductive RDCResult where
  | integrityFailure : RDCResult
  | report : List (String × List (String × Nat)) → RDCResult
deriving DecidableEq

/-- Embeds `EthosAuditLogger.run_drift_check` on an explicit record list, with the
store tracked: result plus the store as the call leaves it. -/
def runDriftCheck (logs : List Entry) : RDCResult × List Entry :=
  let (ok, logs') := hashCheckLoop logs
  if ok then (.report (driftSummary logs'), logs') else (.integrityFailure, logs')

/-! ## The operations of the core, as a step machine -/

/-- One public call on an `EthosAuditLogger`. `driftCheck` is
`run_drift_check()` with the default `historical_logs=None`, i.e. over
`self.audit_log`. -/
inductive CoreOp where
  | logPred : Int → JVal → JVal → String → CoreOp
  | driftCheck : CoreOp

/-- Apply one call to the logger state. -/
def applyOp (st : LoggerState) : CoreOp → LoggerState
  | .logPred now inp pred grp => (logPrediction st now inp pred grp).1
  | .driftCheck => { st with audit_log := (runDriftCheck st.audit_log).2 }

/-- Run a call sequence from a fresh logger. -/
def runOps (model_id : String) (ops : List CoreOp) : LoggerState :=
  ops.foldl applyOp (initLogger model_id)

/-! ## Module loading (`import audit_logger_core`) -/

/-- Python errors relevant to loading the module. -/
inductive PyErr where
  | nameError : String → PyErr
deriving DecidableEq

/-- The names the module's import statements bind (lines 1–4 of the source:
`import json`, `import hashlib`, `import time`,
`from typing import Dict, Any`). -/
def moduleImportedNames : List String :=
  ["json", "hashlib", "time", "Dict", "Any"]

/-- Python builtins the annotations use. -/
def builtinNames : List String :=
  ["str", "int", "float", "bool", "dict", "list", "None"]

/-- Whether a name used in an annotation resolves at class-body execution
time. -/
def resolvesAtClassBody (n : String) : Bool :=
  moduleImportedNames.contains n || builtinNames.contains n

/-- The names each method's signature annotations reference, in source order.
Annotations are evaluated eagerly when each `def` statement executes (no
`from __future__ import annotations` in this module). -/
def classBodyAnnotationRefs : List (String × List String) :=
  [("__init__", ["str"]),
   ("_create_log_entry", ["Dict", "str", "Any"]),
   ("_generate_verifiable_hash", ["Dict", "str", "Any"]),
   ("log_prediction", ["Dict", "str", "Any"]),
   ("run_drift_check", ["List", "Dict", "str", "Any"])]

/-- The first annotation name that fails to resolve while the class body
executes, if any. -/
def firstUnresolvedName : List (String × List String) → Option String
  | [] => none
  | (_, refs) :: rest =>
    match refs.find? (fun n => ! resolvesAtClassBody n) with
    | some n => some n
    | none => firstUnresolvedName rest

/-- Executing the module's top level: the class body runs each `def`,
evaluating its annotations; the first unresolved name raises `NameError` and
aborts the load before the demonstration code at the bottom can run. -/
def loadModule : Except PyErr Unit :=
  match firstUnresolvedName classBodyAnnotationRefs with
  | some n => .error (.nameError n)
  | none => .ok ()

/-! ## Logical equality of field mappings (same key–value pairs, any order) -/

mutual

/-- Two values carry identical logical content: equal leaves, pointwise-equal
arrays, and objects whose key–value pairs coincide up to insertion order —
recursively, so nested mappings may also be reordered. -/
inductive SameMap : JVal → JVal → Prop where
  | jnull : SameMap .jnull .jnull
  | jbool (b : Bool) : SameMap (.jbool b) (.jbool b)
  | jnum (n : Int) : SameMap (.jnum n) (.jnum n)
  | jstr (s : String) : SameMap (.jstr s) (.jstr s)
  | jarr {xs ys : List JVal} : SameMapList xs ys → SameMap (.jarr xs) (.jarr ys)
  | jobj {fs gs gs' : List (String × JVal)} :
      SameMapFields fs gs → gs.Perm gs' → SameMap (.jobj fs) (.jobj gs')

/-- Pointwise `SameMap` on lists. -/
inductive SameMapList : List JVal → List JVal → Prop where
  | nil : SameMapList [] []
  | cons {x y : JVal} {xs ys : List JVal} :
      SameMap x y → SameMapList xs ys → SameMapList (x :: xs) (y :: ys)

/-- Pointwise key-preserving `SameMap` on field lists. -/
inductive SameMapFields : List (String × JVal) → List (String × JVal) → Prop where
  | nil : SameMapFields [] []
  | cons {k : String} {v w : JVal} {fs gs : List (String × JVal)} :
      SameMap v w → SameMapFields fs gs → SameMapFields ((k, v) :: fs) ((k, w) :: gs)

end

/-- Whether `k` does not occur as a key. -/
def keyAbsent (k : String) : List (String × JVal) → Bool
  | [] => true
  | (k', _) :: rest => if k = k' then false else keyAbsent k rest

/-- Whether a field list has pairwise-distinct keys (every Python dict
does). -/
def distinctKeys : List (String × JVal) → Bool
  | [] => true
  | (k, _) :: rest => keyAbsent k rest && distinctKeys rest

mutual

/-- Whether every object inside a value has pairwise-distinct keys: the shape
invariant of values that came from Python dicts. -/
def nodupKeysRec : JVal → Bool
  | .jarr xs => nodupKeysList xs
  | .jobj fs => distinctKeys fs && nodupKeysFields fs
  | _ => true

/-- Check `nodupKeysRec` over array elements. -/
def nodupKeysList : List JVal → Bool
  | [] => true
  | x :: xs => nodupKeysRec x && nodupKeysList xs

/-- Check `nodupKeysRec` over field values. -/
def nodupKeysFields : List (String × JVal) → Bool
  | [] => true
  | (_, v) :: rest => nodupKeysRec v && nodupKeysFields rest

end

/-- A single content-field mutation: exactly one of the five payload fields
of a record differs (JSON-valued fields compared as canonical mappings, so a
mere reordering of a nested dict does not count as a change), the others are
unchanged. -/
def OneFieldChanged (e e' : Entry) : Prop :=
  (e'.timestamp ≠ e.timestamp ∧ e'.model_id = e.model_id ∧
    canonSort e'.input_data = canonSort e.input_data ∧
    canonSort e'.prediction_output = canonSort e.prediction_output ∧
    e'.sensitive_group = e.sensitive_group) ∨
  (e'.timestamp = e.timestamp ∧ e'.model_id ≠ e.model_id ∧
    canonSort e'.input_data = canonSort e.input_data ∧
    canonSort e'.prediction_output = canonSort e.prediction_output ∧
    e'.sensitive_group = e.sensitive_group) ∨
  (e'.timestamp = e.timestamp ∧ e'.model_id = e.model_id ∧
    canonSort e'.input_data ≠ canonSort e.input_data ∧
    canonSort e'.prediction_output = canonSort e.prediction_output ∧
    e'.sensitive_group = e.sensitive_group) ∨
  (e'.timestamp = e.timestamp ∧ e'.model_id = e.model_id ∧
    canonSort e'.input_data = canonSort e.input_data ∧
    canonSort e'.prediction_output ≠ canonSort e.prediction_output ∧
    e'.sensitive_group = e.sensitive_group) ∨
  (e'.timestamp = e.timestamp ∧ e'.model_id = e.model_id ∧
    canonSort e'.input_data = canonSort e.input_data ∧
    canonSort e'.prediction_output = canonSort e.prediction_output ∧
    e'.sensitive_group ≠ e.sensitive_group)

/-! ## Derived views of the store and summary -/

/-- The hash invariant of §3 of the spec, over a whole store. -/
def StoreInv (st : LoggerState) : Prop :=
  ∀ e ∈ st.audit_log, e.hash = entryHash { e with hash := "" }

/-- Read one counter out of a nested `prediction_counts` summary, with the
dict defaults (`{}` / absent key ↦ 0). -/
def summaryCount (s : List (String × List (String × Nat))) (g k : String) : Nat :=
  ((alGet ((alGet s g).getD []) k).getD 0)

/-- Manual tally: how many records fall in group `g` with prediction key
`k`. -/
def tallyCount (logs : List Entry) (g k : String) : Nat :=
  (logs.filter (fun e => e.sensitive_group == g && pyStr e.prediction_output == k)).length

/-- Sortedness of a field list under `keyLe`. -/
def KeySorted (l : List (String × JVal)) : Prop :=
  l.Pairwise (fun p q => keyLe p q = true)

/-- The spec's sealing example, fields in one insertion order. -/
def sealExampleA : JVal :=
  .jobj [("subject_id", .jstr "m1"),
         ("input_data", .jobj [("a", .jnum 1), ("b", .jnum 2)]),
         ("prediction_output", .jnum 1),
         ("sensitive_group", .jstr "A")]

/-- The same logical mapping with the fields (outer and nested) supplied in a
different order. -/
def sealExampleB : JVal :=
  .jobj [("input_data", .jobj [("b", .jnum 2), ("a", .jnum 1)]),
         ("subject_id", .jstr "m1"),
         ("sensitive_group", .jstr "A"),
         ("prediction_output", .jnum 1)]

/-- A record sealed by `log_prediction`, used to build tampered stores. -/
def sealedC1 : Entry := (logPrediction (initLogger "m") 0 (.jobj []) (.jnum 1) "A").2

/-- The sealed record with its prediction overwritten to 7 (tampered: the
stored hash no longer matches). -/
def tamperedC1a : Entry := { sealedC1 with prediction_output := .jnum 7 }

/-- The sealed record with its prediction overwritten to 8 (tampered). -/
def tamperedC1b : Entry := { sealedC1 with prediction_output := .jnum 8 }

/-- Records for the spec's drift example: group A with predictions 1, 0 and
group B with predictions 1, 0, 1 (the demonstration scenario at the bottom of
the source). -/
def demoLogsC4 : List Entry :=
  (runOps "CreditScoreV1"
    [.logPred 0 (.jobj []) (.jnum 1) "A",
     .logPred 1 (.jobj []) (.jnum 1) "B",
     .logPred 2 (.jobj []) (.jnum 0) "A",
     .logPred 3 (.jobj []) (.jnum 0) "B",
     .logPred 4 (.jobj []) (.jnum 1) "B"]).audit_log

/-! # Helper lemmas -/

/-- The hash-check loop hands every stored entry back unchanged: all its
writes go to `entry_copy`. -/
theorem hashCheckLoop_snd (logs : List Entry) : (hashCheckLoop logs).2 = logs := by
  induction logs with
  | nil => rfl
  | cons e rest ih =>
    simp only [hashCheckLoop]
    split
    · simp [ih]
    · rfl

/-- Frame property: `run_drift_check` leaves the store exactly as it found it. -/
theorem runDriftCheck_snd (logs : List Entry) : (runDriftCheck logs).2 = logs := by
  simp only [runDriftCheck]
  split <;> simp_all [hashCheckLoop_snd]

/-- Every operation of the core only ever appends to the audit log. -/
theorem applyOp_audit_log (st : LoggerState) (op : CoreOp) :
    ∃ tail, (applyOp st op).audit_log = st.audit_log ++ tail := by
  cases op with
  | logPred now inp pred grp => exact ⟨_, rfl⟩
  | driftCheck => exact ⟨[], by simp [applyOp, runDriftCheck_snd]⟩

/-- Appending with `log_prediction` preserves the store-wide hash invariant. -/
theorem storeInv_logPrediction (st : LoggerState) (now : Int) (inp pred : JVal)
    (grp : String) (h : StoreInv st) :
    StoreInv (logPrediction st now inp pred grp).1 := by
  intro e he
  simp only [logPrediction, List.mem_append, List.mem_singleton] at he
  rcases he with he | he
  · exact h e he
  · subst he; rfl

/-- Every operation preserves the store-wide hash invariant. -/
theorem storeInv_applyOp (st : LoggerState) (op : CoreOp) (h : StoreInv st) :
    StoreInv (applyOp st op) := by
  cases op with
  | logPred now inp pred grp => exact storeInv_logPrediction st now inp pred grp h
  | driftCheck =>
    intro e he
    apply h
    simpa [applyOp, runDriftCheck_snd] using he

/-- Any run of core operations from a fresh logger satisfies the store-wide
hash invariant. -/
theorem storeInv_runOps (model_id : String) (ops : List CoreOp) :
    StoreInv (runOps model_id ops) := by
  suffices h : ∀ st, StoreInv st → StoreInv (ops.foldl applyOp st) by
    apply h
    intro e he
    simp [initLogger] at he
  induction ops with
  | nil => intro st h; exact h
  | cons op rest ih =>
    intro st h
    exact ih _ (storeInv_applyOp st op h)

/-- Looking a key up after a store: the stored value at the stored key,
otherwise the old binding. -/
theorem alGet_alSet {α : Type} (l : List (String × α)) (key k : String) (v : α) :
    alGet (alSet l key v) k = if key = k then some v else alGet l k := by
  induction l with
  | nil => simp [alSet, alGet]
  | cons p rest ih =>
    obtain ⟨pk, pv⟩ := p
    by_cases hpk : pk = key
    · subst hpk
      by_cases hk : pk = k <;> simp [alSet, alGet, hk]
    · by_cases hk : pk = k
      · subst hk
        simp [alSet, alGet, hpk, Ne.symm hpk]
      · simp [alSet, alGet, hpk, hk, ih]

/-- One tally-loop iteration adds one to exactly the touched counter. -/
theorem summaryCount_bumpCount (acc : List (String × List (String × Nat)))
    (g' k' g k : String) :
    summaryCount (bumpCount acc g' k') g k =
      summaryCount acc g k + (if g' = g ∧ k' = k then 1 else 0) := by
  simp only [summaryCount, bumpCount, alGet_alSet]
  by_cases hg : g' = g
  · subst hg
    by_cases hk : k' = k
    · subst hk
      simp [alGet_alSet]
    · simp [alGet_alSet, hk]
  · simp [hg]

/-- The tally loop computes the manual tally, on top of whatever the
accumulator already counts. -/
theorem summaryCount_driftLoop (logs : List Entry)
    (acc : List (String × List (String × Nat))) (g k : String) :
    summaryCount (driftLoop acc logs) g k = summaryCount acc g k + tallyCount logs g k := by
  induction logs generalizing acc with
  | nil => simp [driftLoop, tallyCount]
  | cons e rest ih =>
    rw [driftLoop, ih, summaryCount_bumpCount]
    have : tallyCount (e :: rest) g k =
        (if e.sensitive_group = g ∧ pyStr e.prediction_output = k then 1 else 0) +
          tallyCount rest g k := by
      simp only [tallyCount, List.filter_cons]
      by_cases h1 : e.sensitive_group = g ∧ pyStr e.prediction_output = k
      · simp [h1.1, h1.2]
        omega
      · rw [if_neg h1]
        rcases not_and_or.mp h1 with h2 | h2 <;>
          · have hb : (e.sensitive_group == g && pyStr e.prediction_output == k) = false := by
              simp [h2]
            simp [hb]
    rw [this]
    omega

/-- Reflexivity of `lexLe`. -/
theorem lexLe_refl (a : List Char) : lexLe a a = true := by
  induction a with
  | nil => rfl
  | cons c cs ih => simp [lexLe, ih]

/-- Totality of `lexLe`. -/
theorem lexLe_total (a b : List Char) : lexLe a b = true ∨ lexLe b a = true := by
  induction a generalizing b with
  | nil => left; rfl
  | cons c cs ih =>
    cases b with
    | nil => right; rfl
    | cons d ds =>
      by_cases h1 : c.toNat < d.toNat
      · left; simp [lexLe, h1]
      · by_cases h2 : d.toNat < c.toNat
        · right; simp [lexLe, h2]
        · rcases ih ds with h | h
          · left; simp [lexLe, h1, h2, h]
          · right; simp [lexLe, h1, h2, h]

/-- Transitivity of `lexLe`. -/
theorem lexLe_trans : ∀ a b c : List Char,
    lexLe a b = true → lexLe b c = true → lexLe a c = true := by
  intro a
  induction a with
  | nil => intro b c _ _; rfl
  | cons x xs ih =>
    intro b c h1 h2
    cases b with
    | nil => simp [lexLe] at h1
    | cons y ys =>
      cases c with
      | nil => simp [lexLe] at h2
      | cons z zs =>
        simp only [lexLe] at h1 h2 ⊢
        by_cases hxy : x.toNat < y.toNat
        · by_cases hyz : y.toNat < z.toNat
          · simp [Nat.lt_trans hxy hyz]
          · rw [if_neg hyz] at h2
            by_cases hzy : z.toNat < y.toNat
            · rw [if_pos hzy] at h2; cases h2
            · have : x.toNat < z.toNat := by omega
              simp [this]
        · rw [if_neg hxy] at h1
          by_cases hyx : y.toNat < x.toNat
          · rw [if_pos hyx] at h1; cases h1
          · rw [if_neg hyx] at h1
            by_cases hyz : y.toNat < z.toNat
            · have : x.toNat < z.toNat := by omega
              simp [this]
            · rw [if_neg hyz] at h2
              by_cases hzy : z.toNat < y.toNat
              · rw [if_pos hzy] at h2; cases h2
              · rw [if_neg hzy] at h2
                have hxz : ¬ x.toNat < z.toNat := by omega
                have hzx : ¬ z.toNat < x.toNat := by omega
                simp only [hxz, hzx, if_false]
                exact ih ys zs h1 h2

/-- Antisymmetry of `lexLe`: mutual order forces equality. -/
theorem lexLe_antisymm : ∀ a b : List Char,
    lexLe a b = true → lexLe b a = true → a = b := by
  intro a
  induction a with
  | nil =>
    intro b _ h2
    cases b with
    | nil => rfl
    | cons d ds => simp [lexLe] at h2
  | cons x xs ih =>
    intro b h1 h2
    cases b with
    | nil => simp [lexLe] at h1
    | cons y ys =>
      simp only [lexLe] at h1 h2
      by_cases hxy : x.toNat < y.toNat
      · rw [if_neg (by omega), if_pos hxy] at h2; cases h2
      · rw [if_neg hxy] at h1
        by_cases hyx : y.toNat < x.toNat
        · rw [if_pos hyx] at h1; cases h1
        · rw [if_neg hyx, if_neg hxy] at h2
          rw [if_neg hyx] at h1
          have hn : x.toNat = y.toNat := by omega
          have hx : x = y := Char.ext (UInt32.ext hn)
          rw [hx, ih ys h1 h2]

/-- Totality of `keyLe`. -/
theorem keyLe_total (p q : String × JVal) : keyLe p q = true ∨ keyLe q p = true :=
  lexLe_total p.1.data q.1.data

/-- Transitivity of `keyLe`. -/
theorem keyLe_trans {p q r : String × JVal} (h1 : keyLe p q = true)
    (h2 : keyLe q r = true) : keyLe p r = true :=
  lexLe_trans p.1.data q.1.data r.1.data h1 h2

/-- Mutual `keyLe` means equal keys. -/
theorem keyLe_antisymm {p q : String × JVal} (h1 : keyLe p q = true)
    (h2 : keyLe q p = true) : p.1 = q.1 := by
  have := lexLe_antisymm p.1.data q.1.data h1 h2
  cases p1 : p.1
  cases q1 : q.1
  simp_all

/-- Inserting is a permutation-respecting cons. -/
theorem orderedInsertKey_perm (p : String × JVal) (l : List (String × JVal)) :
    (orderedInsertKey p l).Perm (p :: l) := by
  induction l with
  | nil => exact List.Perm.refl _
  | cons q rest ih =>
    simp only [orderedInsertKey]
    split
    · exact List.Perm.refl _
    · exact (ih.cons q).trans (List.Perm.swap p q rest)

/-- Sorting the fields is a permutation of them. -/
theorem sortFields_perm (l : List (String × JVal)) : (sortFields l).Perm l := by
  induction l with
  | nil => exact List.Perm.refl _
  | cons p rest ih =>
    exact (orderedInsertKey_perm p (sortFields rest)).trans (ih.cons p)

/-- Inserting into a key-sorted list keeps it key-sorted. -/
theorem orderedInsertKey_sorted (p : String × JVal) (l : List (String × JVal))
    (h : KeySorted l) : KeySorted (orderedInsertKey p l) := by
  induction l with
  | nil => simp [orderedInsertKey, KeySorted]
  | cons q rest ih =>
    simp only [orderedInsertKey]
    split
    · rename_i hpq
      refine List.Pairwise.cons ?_ h
      intro x hx
      rcases List.mem_cons.mp hx with hx | hx
      · subst hx; exact hpq
      · exact keyLe_trans hpq (List.rel_of_pairwise_cons h hx)
    · rename_i hpq
      have hqp : keyLe q p = true := by
        rcases keyLe_total p q with ht | ht
        · exact absurd ht hpq
        · exact ht
      refine List.Pairwise.cons ?_ (ih (List.Pairwise.sublist (List.sublist_cons_self q rest) h))
      intro x hx
      rcases List.mem_cons.mp ((orderedInsertKey_perm p rest).mem_iff.mp hx) with hx2 | hx2
      · subst hx2; exact hqp
      · exact List.rel_of_pairwise_cons h hx2

/-- Sorting fields produces a key-sorted list. -/
theorem sortFields_sorted (l : List (String × JVal)) : KeySorted (sortFields l) := by
  induction l with
  | nil => simp [sortFields, KeySorted]
  | cons p rest ih => exact orderedInsertKey_sorted p (sortFields rest) ih

/-- Two key-sorted permutations of each other with duplicate-free keys are the
same list: key-sorting is canonical on Python dicts. -/
theorem sorted_perm_nodup_eq : ∀ l1 l2 : List (String × JVal), l1.Perm l2 →
    KeySorted l1 → KeySorted l2 → (l1.map Prod.fst).Nodup → l1 = l2 := by
  intro l1
  induction l1 with
  | nil =>
    intro l2 hp _ _ _
    exact (List.Perm.nil_eq hp).symm ▸ rfl
  | cons a t1 ih =>
    intro l2 hp h1 h2 hnd
    cases l2 with
    | nil => exact absurd hp.symm (by simp)
    | cons b t2 =>
      have hab : a = b := by
        have hain : a ∈ b :: t2 := hp.mem_iff.mp (List.mem_cons_self a t1)
        rcases List.mem_cons.mp hain with h | hat2
        · exact h
        · have hbin : b ∈ a :: t1 := hp.symm.mem_iff.mp (List.mem_cons_self b t2)
          rcases List.mem_cons.mp hbin with h | hbt1
          · exact h.symm
          · -- a sits in t2 and b sits in t1: the sort orders force equal keys,
            -- which the nodup key list rules out unless the pairs coincide
            have hba : keyLe b a = true := List.rel_of_pairwise_cons h2 hat2
            have hab2 : keyLe a b = true := List.rel_of_pairwise_cons h1 hbt1
            have hkey : a.1 = b.1 := keyLe_antisymm hab2 hba
            have : b.1 ∈ t1.map Prod.fst := List.mem_map_of_mem Prod.fst hbt1
            rw [← hkey] at this
            simp only [List.map_cons, List.nodup_cons] at hnd
            exact absurd this hnd.1
      subst hab
      have ht : t1.Perm t2 := hp.cons_inv
      rw [ih t2 ht (List.Pairwise.sublist (List.sublist_cons_self a t1) h1)
        (List.Pairwise.sublist (List.sublist_cons_self a t2) h2)
        (by simpa using (List.nodup_cons.mp (by simpa using hnd)).2)]

/-! ### Injectivity of the decimal rendering -/

/-- Digits below 10 print as `'0'`–`'9'`. -/
theorem hexDigit_toNat_lt10 : ∀ d < 10, (hexDigit d).toNat = 48 + d := by decide

/-- Decoding with `digitVal` undoes `hexDigit` on decimal digits. -/
theorem digitVal_hexDigit : ∀ d < 10, digitVal (hexDigit d) = d := by decide

/-- The digit characters of `natCharsAux` decode back to the number. -/
theorem fromLE_natCharsAux : ∀ fuel n, n ≤ fuel → fromLE (natCharsAux fuel n) = n := by
  intro fuel
  induction fuel with
  | zero =>
    intro n hn
    interval_cases n
    rfl
  | succ fuel ih =>
    intro n hn
    by_cases h0 : n = 0
    · subst h0; rfl
    · have hdiv : n / 10 ≤ fuel := by omega
      simp only [natCharsAux, h0, if_false, fromLE]
      rw [ih (n / 10) hdiv, digitVal_hexDigit (n % 10) (Nat.mod_lt n (by omega))]
      omega

/-- Injectivity of `natChars`. -/
theorem natChars_inj {n m : Nat} (h : natChars n = natChars m) : n = m := by
  by_cases hn : n = 0 <;> by_cases hm : m = 0
  · omega
  · exfalso
    simp only [natChars, hn, if_true, hm, if_false] at h
    have : fromLE (natCharsAux m m) = m := fromLE_natCharsAux m m (Nat.le_refl m)
    have hrev : natCharsAux m m = ['0'] := by
      have := congrArg List.reverse h
      simpa using this.symm
    rw [hrev] at this
    simp [fromLE, digitVal] at this
    omega
  · exfalso
    simp only [natChars, hn, if_false, hm, if_true] at h
    have : fromLE (natCharsAux n n) = n := fromLE_natCharsAux n n (Nat.le_refl n)
    have hrev : natCharsAux n n = ['0'] := by
      have := congrArg List.reverse h
      simpa using this
    rw [hrev] at this
    simp [fromLE, digitVal] at this
    omega
  · simp only [natChars, hn, hm, if_false] at h
    have h2 : natCharsAux n n = natCharsAux m m := by
      have := congrArg List.reverse h
      simpa using this
    have e1 := fromLE_natCharsAux n n (Nat.le_refl n)
    have e2 := fromLE_natCharsAux m m (Nat.le_refl m)
    rw [← e1, ← e2, h2]

/-- Every character of `natCharsAux` is a decimal digit. -/
theorem natCharsAux_digits : ∀ fuel n, ∀ c ∈ natCharsAux fuel n,
    48 ≤ c.toNat ∧ c.toNat ≤ 57 := by
  intro fuel
  induction fuel with
  | zero => intro n c hc; simp [natCharsAux] at hc
  | succ fuel ih =>
    intro n c hc
    simp only [natCharsAux] at hc
    split at hc
    · simp at hc
    · rcases List.mem_cons.mp hc with hc | hc
      · subst hc
        rw [hexDigit_toNat_lt10 (n % 10) (Nat.mod_lt n (by omega))]
        omega
      · exact ih (n / 10) c hc

/-- Every character of `natChars` is a decimal digit. -/
theorem natChars_digits (n : Nat) : ∀ c ∈ natChars n, 48 ≤ c.toNat ∧ c.toNat ≤ 57 := by
  intro c hc
  simp only [natChars] at hc
  split at hc
  · simp at hc
    subst hc
    decide
  · exact natCharsAux_digits n n c (List.mem_reverse.mp hc)

/-- Every character of `intChars` is a sign or digit. -/
theorem intChars_numchar (i : Int) : ∀ c ∈ intChars i, IsNumChar c := by
  intro c hc
  simp only [intChars] at hc
  split at hc
  · rcases List.mem_cons.mp hc with hc | hc
    · exact Or.inl hc
    · exact Or.inr (natChars_digits _ c hc)
  · exact Or.inr (natChars_digits _ c hc)

/-- Rendering a natural number never yields the empty list. -/
theorem natChars_ne_nil (n : Nat) : natChars n ≠ [] := by
  simp only [natChars]
  split
  · simp
  · intro h
    have : fromLE (natCharsAux n n) = n := fromLE_natCharsAux n n (Nat.le_refl n)
    rw [show natCharsAux n n = [] by simpa using congrArg List.reverse h] at this
    simp [fromLE] at this
    omega

/-- Rendering an integer never yields the empty list. -/
theorem intChars_ne_nil (i : Int) : intChars i ≠ [] := by
  simp only [intChars]
  split
  · simp
  · exact natChars_ne_nil _

/-- The first character of a natural rendering is a digit, never a sign. -/
theorem natChars_head_digit (n : Nat) : ∀ c t, natChars n = c :: t → c ≠ '-' := by
  intro c t h hc
  have := natChars_digits n c (h ▸ List.mem_cons_self c t)
  subst hc
  revert this
  decide

/-- Injectivity of `intChars`. -/
theorem intChars_inj {i j : Int} (h : intChars i = intChars j) : i = j := by
  by_cases hi : i < 0 <;> by_cases hj : j < 0
  · simp only [intChars, hi, hj, if_true, List.cons.injEq, true_and] at h
    have := natChars_inj h
    omega
  · exfalso
    simp only [intChars, hi, hj, if_true, if_false] at h
    cases hn : natChars j.natAbs with
    | nil => exact natChars_ne_nil _ hn
    | cons c t =>
      rw [hn, List.cons.injEq] at h
      exact natChars_head_digit j.natAbs c t hn h.1.symm
  · exfalso
    simp only [intChars, hi, hj, if_true, if_false] at h
    cases hn : natChars i.natAbs with
    | nil => exact natChars_ne_nil _ hn
    | cons c t =>
      rw [hn, List.cons.injEq] at h
      exact natChars_head_digit i.natAbs c t hn h.1
  · simp only [intChars, hi, hj, if_false] at h
    have := natChars_inj h
    omega

/-! ### Injectivity of the string escaping -/

/-- A character's code point avoids the UTF-16 surrogate range. -/
theorem char_valid_ranges (c : Char) :
    c.toNat < 0xd800 ∨ (0xdfff < c.toNat ∧ c.toNat < 0x110000) := by
  rcases c.valid with h | h
  · left
    show c.val.toNat < 55296
    exact_mod_cast h
  · right
    refine ⟨?_, ?_⟩
    · show 57343 < c.val.toNat
      exact_mod_cast h.1
    · show c.val.toNat < 1114112
      exact_mod_cast h.2

/-- Enumeration of the short-escape table. -/
theorem shortEsc_spec (c s : Char) (h : shortEsc c = some s) :
    (c = '"' ∧ s = '"') ∨ (c = '\\' ∧ s = '\\') ∨ (c.toNat = 8 ∧ s = 'b') ∨
    (c.toNat = 9 ∧ s = 't') ∨ (c.toNat = 10 ∧ s = 'n') ∨ (c.toNat = 12 ∧ s = 'f') ∨
    (c.toNat = 13 ∧ s = 'r') := by
  simp only [shortEsc] at h
  split_ifs at h with a1 a2 a3 a4 a5 a6 a7
  · exact Or.inl ⟨a1, (Option.some.injEq _ _ ▸ h).symm⟩
  · exact Or.inr (Or.inl ⟨a2, (Option.some.injEq _ _ ▸ h).symm⟩)
  · exact Or.inr (Or.inr (Or.inl ⟨a3, (Option.some.injEq _ _ ▸ h).symm⟩))
  · exact Or.inr (Or.inr (Or.inr (Or.inl ⟨a4, (Option.some.injEq _ _ ▸ h).symm⟩)))
  · exact Or.inr (Or.inr (Or.inr (Or.inr (Or.inl ⟨a5, (Option.some.injEq _ _ ▸ h).symm⟩))))
  · exact Or.inr (Or.inr (Or.inr (Or.inr (Or.inr (Or.inl
      ⟨a6, (Option.some.injEq _ _ ▸ h).symm⟩)))))
  · exact Or.inr (Or.inr (Or.inr (Or.inr (Or.inr (Or.inr
      ⟨a7, (Option.some.injEq _ _ ▸ h).symm⟩)))))

/-- Characters with equal code points are equal. -/
theorem char_toNat_eq {c1 c2 : Char} (h : c1.toNat = c2.toNat) : c1 = c2 :=
  Char.ext (UInt32.ext h)

/-- The short-escape table is injective. -/
theorem shortEsc_inj : ∀ c1 c2 s, shortEsc c1 = some s → shortEsc c2 = some s → c1 = c2 := by
  intro c1 c2 s h1 h2
  rcases shortEsc_spec c1 s h1 with ⟨hc1, hs1⟩ | ⟨hc1, hs1⟩ | ⟨hc1, hs1⟩ | ⟨hc1, hs1⟩ |
      ⟨hc1, hs1⟩ | ⟨hc1, hs1⟩ | ⟨hc1, hs1⟩ <;>
    rcases shortEsc_spec c2 s h2 with ⟨hc2, hs2⟩ | ⟨hc2, hs2⟩ | ⟨hc2, hs2⟩ | ⟨hc2, hs2⟩ |
      ⟨hc2, hs2⟩ | ⟨hc2, hs2⟩ | ⟨hc2, hs2⟩ <;>
    subst hs1 <;>
    first
      | exact absurd hs2 (by decide)
      | (first
          | exact hc1.trans hc2.symm
          | exact char_toNat_eq (by omega))

/-- Complete branch analysis of `escChar`: a literal character, a short
escape, a single `\uXXXX` escape, or a surrogate pair. -/
theorem escChar_cases (c : Char) :
    (escChar c = [c] ∧ c ≠ '"' ∧ c ≠ '\\' ∧ 0x20 ≤ c.toNat ∧ c.toNat < 0x7f) ∨
    (∃ sc, escChar c = ['\\', sc] ∧ sc ≠ 'u' ∧ shortEsc c = some sc) ∨
    (c.toNat < 0x10000 ∧ escChar c = '\\' :: 'u' :: hex4 c.toNat) ∨
    (0x10000 ≤ c.toNat ∧ escChar c =
      ('\\' :: 'u' :: hex4 (0xd800 + (c.toNat - 0x10000) / 0x400)) ++
        ('\\' :: 'u' :: hex4 (0xdc00 + (c.toNat - 0x10000) % 0x400))) := by
  by_cases h1 : c = '"'
  · exact Or.inr (Or.inl ⟨'"', by simp [escChar, h1], by decide, by simp [shortEsc, h1]⟩)
  by_cases h2 : c = '\\'
  · exact Or.inr (Or.inl ⟨'\\', by simp [escChar, h1, h2], by decide, by simp [shortEsc, h1, h2]⟩)
  by_cases h3 : c.toNat = 8
  · exact Or.inr (Or.inl ⟨'b', by simp [escChar, h1, h2, h3], by decide,
      by simp [shortEsc, h1, h2, h3]⟩)
  by_cases h4 : c.toNat = 9
  · exact Or.inr (Or.inl ⟨'t', by simp [escChar, h1, h2, h3, h4], by decide,
      by simp [shortEsc, h1, h2, h3, h4]⟩)
  by_cases h5 : c.toNat = 10
  · exact Or.inr (Or.inl ⟨'n', by simp [escChar, h1, h2, h3, h4, h5], by decide,
      by simp [shortEsc, h1, h2, h3, h4, h5]⟩)
  by_cases h6 : c.toNat = 12
  · exact Or.inr (Or.inl ⟨'f', by simp [escChar, h1, h2, h3, h4, h5, h6], by decide,
      by simp [shortEsc, h1, h2, h3, h4, h5, h6]⟩)
  by_cases h7 : c.toNat = 13
  · exact Or.inr (Or.inl ⟨'r', by simp [escChar, h1, h2, h3, h4, h5, h6, h7], by decide,
      by simp [shortEsc, h1, h2, h3, h4, h5, h6, h7]⟩)
  by_cases h8 : c.toNat < 0x20
  · exact Or.inr (Or.inr (Or.inl ⟨by omega,
      by simp [escChar, h1, h2, h3, h4, h5, h6, h7, h8]⟩))
  by_cases h9 : c.toNat < 0x7f
  · exact Or.inl ⟨by simp [escChar, h1, h2, h3, h4, h5, h6, h7, h8, h9], h1, h2,
      by omega, by omega⟩
  by_cases h10 : c.toNat < 0x10000
  · exact Or.inr (Or.inr (Or.inl ⟨h10,
      by simp [escChar, h1, h2, h3, h4, h5, h6, h7, h8, h9, h10]⟩))
  · exact Or.inr (Or.inr (Or.inr ⟨by omega,
      by simp [escChar, h1, h2, h3, h4, h5, h6, h7, h8, h9, h10]⟩))

/-- Escape output is nonempty and never starts with a bare quote. -/
theorem escChar_head : ∀ c, ∃ d t, escChar c = d :: t ∧ d ≠ '"' ∧ (d = '\\' ∨ d = c) := by
  intro c
  rcases escChar_cases c with ⟨he, hq, _⟩ | ⟨sc, he, _, _⟩ | ⟨_, he⟩ | ⟨_, he⟩
  · exact ⟨c, [], he, hq, Or.inr rfl⟩
  · exact ⟨'\\', [sc], he, by decide, Or.inl rfl⟩
  · exact ⟨'\\', _, he, by decide, Or.inl rfl⟩
  · exact ⟨'\\', _, he, by decide, Or.inl rfl⟩

/-- Injectivity of the hex digit table below sixteen. -/
theorem hexDigit_inj16 : ∀ a < 16, ∀ b < 16, hexDigit a = hexDigit b → a = b := by decide

/-- Two `\uXXXX` digit blocks written for values below `0x10000` are a prefix
code. -/
theorem hexquad_pfree {v1 v2 : Nat} (h1 : v1 < 0x10000) (h2 : v2 < 0x10000)
    {t1 t2 : List Char}
    (h : ('\\' :: 'u' :: hex4 v1) ++ t1 = ('\\' :: 'u' :: hex4 v2) ++ t2) :
    v1 = v2 ∧ t1 = t2 := by
  simp only [hex4, List.cons_append, List.nil_append, List.cons.injEq, true_and] at h
  obtain ⟨e1, e2, e3, e4, et⟩ := h
  have d1 := hexDigit_inj16 _ (Nat.mod_lt _ (by omega)) _ (Nat.mod_lt _ (by omega)) e1
  have d2 := hexDigit_inj16 _ (Nat.mod_lt _ (by omega)) _ (Nat.mod_lt _ (by omega)) e2
  have d3 := hexDigit_inj16 _ (Nat.mod_lt _ (by omega)) _ (Nat.mod_lt _ (by omega)) e3
  have d4 := hexDigit_inj16 _ (Nat.mod_lt _ (by omega)) _ (Nat.mod_lt _ (by omega)) e4
  exact ⟨by omega, et⟩

/-- Escaping is a prefix code: no escape output is a proper prefix of
another's. -/
theorem escChar_pfree : ∀ c1 c2 : Char, ∀ t1 t2 : List Char,
    escChar c1 ++ t1 = escChar c2 ++ t2 → c1 = c2 ∧ t1 = t2 := by
  intro c1 c2 t1 t2 h
  rcases escChar_cases c1 with ⟨he1, hq1, hb1, hr1, hr1b⟩ | ⟨s1, he1, hu1, hm1⟩ |
    ⟨hb1, he1⟩ | ⟨hb1, he1⟩ <;>
    rcases escChar_cases c2 with ⟨he2, hq2, hb2, hr2, hr2b⟩ | ⟨s2, he2, hu2, hm2⟩ |
      ⟨hb2, he2⟩ | ⟨hb2, he2⟩ <;>
    rw [he1, he2] at h
  · simp only [List.cons_append, List.nil_append, List.cons.injEq] at h
    exact ⟨h.1, h.2⟩
  · exfalso
    simp only [List.cons_append, List.nil_append, List.cons.injEq] at h
    exact hb1 h.1
  · exfalso
    simp only [List.cons_append, List.nil_append, List.cons.injEq] at h
    exact hb1 h.1
  · exfalso
    simp only [List.cons_append, List.nil_append, List.cons.injEq] at h
    exact hb1 h.1
  · exfalso
    simp only [List.cons_append, List.nil_append, List.cons.injEq] at h
    exact hb2 h.1.symm
  · simp only [List.cons_append, List.nil_append, List.cons.injEq, true_and] at h
    obtain ⟨hs, ht⟩ := h
    subst hs
    exact ⟨shortEsc_inj c1 c2 s1 hm1 hm2, ht⟩
  · exfalso
    simp only [List.cons_append, List.nil_append, List.cons.injEq, true_and] at h
    exact hu1 h.1
  · exfalso
    simp only [List.cons_append, List.nil_append, List.cons.injEq, true_and] at h
    exact hu1 h.1
  · exfalso
    simp only [List.cons_append, List.nil_append, List.cons.injEq] at h
    exact hb2 h.1.symm
  · exfalso
    simp only [List.cons_append, List.nil_append, List.cons.injEq, true_and] at h
    exact hu2 h.1.symm
  · obtain ⟨hv, ht⟩ := hexquad_pfree hb1 hb2 h
    exact ⟨Char.ext (UInt32.ext hv), ht⟩
  · exfalso
    rcases char_valid_ranges c2 with hv2 | hv2
    · omega
    · rw [List.append_assoc] at h
      obtain ⟨hv, _⟩ := hexquad_pfree hb1 (by omega) h
      rcases char_valid_ranges c1 with hr | hr <;> omega
  · exfalso
    simp only [List.cons_append, List.nil_append, List.cons.injEq] at h
    exact hb2 h.1.symm
  · exfalso
    simp only [List.cons_append, List.nil_append, List.cons.injEq, true_and] at h
    exact hu2 h.1.symm
  · exfalso
    rcases char_valid_ranges c1 with hv1 | hv1
    · omega
    · rw [List.append_assoc] at h
      obtain ⟨hv, _⟩ := hexquad_pfree (by omega) hb2 h
      rcases char_valid_ranges c2 with hr | hr <;> omega
  · rcases char_valid_ranges c1 with hv1 | hv1
    · exact absurd hb1 (by omega)
    rcases char_valid_ranges c2 with hv2 | hv2
    · exact absurd hb2 (by omega)
    rw [List.append_assoc, List.append_assoc] at h
    obtain ⟨hhi, hrest⟩ := hexquad_pfree (by omega) (by omega) h
    obtain ⟨hlo, ht⟩ := hexquad_pfree (by omega) (by omega) hrest
    exact ⟨char_toNat_eq (by omega), ht⟩

/-- A quote-terminated escaped body is decodable: escaping plus the closing
quote is a prefix code on strings. -/
theorem escBody_quote_inj : ∀ s1 s2 r1 r2 : List Char,
    escBody s1 ++ '"' :: r1 = escBody s2 ++ '"' :: r2 → s1 = s2 ∧ r1 = r2 := by
  intro s1
  induction s1 with
  | nil =>
    intro s2 r1 r2 h
    cases s2 with
    | nil => simpa using h
    | cons c cs =>
      exfalso
      obtain ⟨d, t, he, hdq, _⟩ := escChar_head c
      simp only [escBody, List.nil_append, he, List.cons_append, List.append_assoc] at h
      injection h with h1 h2
      exact hdq h1.symm
  | cons c cs ih =>
    intro s2 r1 r2 h
    cases s2 with
    | nil =>
      exfalso
      obtain ⟨d, t, he, hdq, _⟩ := escChar_head c
      simp only [escBody, List.nil_append, he, List.cons_append, List.append_assoc] at h
      injection h with h1 h2
      exact hdq h1
    | cons c2 cs2 =>
      simp only [escBody, List.append_assoc] at h
      obtain ⟨hc, ht⟩ := escChar_pfree c c2 _ _ h
      obtain ⟨hcs, hr⟩ := ih cs2 r1 r2 ht
      exact ⟨by rw [hc, hcs], hr⟩

/-- Splitting a concatenation at a predicate boundary: if both left parts
satisfy `P` throughout and both right parts open with a non-`P` character (or
end), the split is unique. -/
theorem append_sep {P : Char → Prop} : ∀ xs ys r1 r2 : List Char,
    xs ++ r1 = ys ++ r2 → (∀ c ∈ xs, P c) → (∀ c ∈ ys, P c) →
    (∀ c t, r1 = c :: t → ¬ P c) → (∀ c t, r2 = c :: t → ¬ P c) →
    xs = ys ∧ r1 = r2 := by
  intro xs
  induction xs with
  | nil =>
    intro ys r1 r2 h hx hy hr1 hr2
    cases ys with
    | nil => simpa using h
    | cons y ys' =>
      exfalso
      simp only [List.nil_append, List.cons_append] at h
      exact hr1 y (ys' ++ r2) h (hy y (List.mem_cons_self y ys'))
  | cons x xs' ih =>
    intro ys r1 r2 h hx hy hr1 hr2
    cases ys with
    | nil =>
      exfalso
      simp only [List.nil_append, List.cons_append] at h
      exact hr2 x (xs' ++ r1) h.symm (hx x (List.mem_cons_self x xs'))
    | cons y ys' =>
      simp only [List.cons_append, List.cons.injEq] at h
      obtain ⟨hxy, ht⟩ := h
      obtain ⟨hl, hr⟩ := ih ys' r1 r2 ht (fun c hc => hx c (List.mem_cons_of_mem x hc))
        (fun c hc => hy c (List.mem_cons_of_mem y hc)) hr1 hr2
      exact ⟨by rw [hxy, hl], hr⟩

/-- Serialized values are never empty. -/
theorem ser_ne_nil : ∀ v : JVal, ser v ≠ [] := by
  intro v
  cases v with
  | jnull => simp [ser]
  | jbool b => cases b <;> simp [ser]
  | jnum n => simpa [ser] using intChars_ne_nil n
  | jstr s => simp [ser, quoteChars]
  | jarr xs => simp [ser]
  | jobj fs => simp [ser]

/-- The first serialized character names the constructor class. -/
theorem ser_head_kind : ∀ v : JVal, ∀ c t, ser v = c :: t → headKindChar c = kindOf v := by
  intro v c t h
  cases v with
  | jnull =>
    simp only [ser, List.cons.injEq] at h
    rw [← h.1]
    rfl
  | jbool b =>
    cases b <;> simp only [ser, List.cons.injEq] at h <;> rw [← h.1] <;> rfl
  | jnum n =>
    have hmem : c ∈ intChars n := by
      rw [show intChars n = c :: t from h]
      exact List.mem_cons_self c t
    have hnum : IsNumChar c := intChars_numchar n c hmem
    rcases hnum with hc | ⟨hlo, hhi⟩
    · subst hc; rfl
    · simp only [headKindChar, kindOf]
      rw [if_neg (fun hq => by subst hq; revert hlo hhi; decide),
        if_neg (fun hq => by subst hq; revert hlo hhi; decide),
        if_neg (fun hq => by subst hq; revert hlo hhi; decide),
        if_neg (fun hq => by subst hq; revert hlo hhi; decide),
        if_neg (fun hq => by subst hq; revert hlo hhi; decide),
        if_neg (fun hq => by subst hq; revert hlo hhi; decide)]
  | jstr s =>
    simp only [ser, quoteChars, List.cons.injEq] at h
    rw [← h.1]
    rfl
  | jarr xs =>
    simp only [ser, List.cons.injEq] at h
    rw [← h.1]
    rfl
  | jobj fs =>
    simp only [ser, List.cons.injEq] at h
    rw [← h.1]
    rfl

/-- The first serialized character is never a separator or closer. -/
theorem ser_head_ne_delim : ∀ v : JVal, ∀ c t, ser v = c :: t →
    c ≠ ',' ∧ c ≠ ']' ∧ c ≠ '}' := by
  intro v c t h
  cases v with
  | jnull =>
    simp only [ser, List.cons.injEq] at h
    rw [← h.1]
    refine ⟨by decide, by decide, by decide⟩
  | jbool b =>
    cases b <;> simp only [ser, List.cons.injEq] at h <;> rw [← h.1] <;>
      exact ⟨by decide, by decide, by decide⟩
  | jnum n =>
    have hmem : c ∈ intChars n := by
      rw [show intChars n = c :: t from h]
      exact List.mem_cons_self c t
    have hnum : IsNumChar c := intChars_numchar n c hmem
    rcases hnum with hc | ⟨hlo, hhi⟩
    · subst hc; exact ⟨by decide, by decide, by decide⟩
    · refine ⟨?_, ?_, ?_⟩ <;> intro hq <;> subst hq <;> revert hlo hhi <;> decide
  | jstr s =>
    simp only [ser, quoteChars, List.cons.injEq] at h
    rw [← h.1]
    exact ⟨by decide, by decide, by decide⟩
  | jarr xs =>
    simp only [ser, List.cons.injEq] at h
    rw [← h.1]
    exact ⟨by decide, by decide, by decide⟩
  | jobj fs =>
    simp only [ser, List.cons.injEq] at h
    rw [← h.1]
    exact ⟨by decide, by decide, by decide⟩

/-- A delimiter tail never opens with a number character. -/
theorem delim_not_numchar {r : List Char} (hd : DelimNext r) :
    ∀ c t, r = c :: t → ¬ IsNumChar c := by
  intro c t hr hnum
  rcases hd with hnil | ⟨u, hu | hu | hu⟩
  · rw [hnil] at hr; cases hr
  all_goals
    rw [hu] at hr
    obtain ⟨hc, _⟩ := List.cons.injEq .. ▸ hr
    subst hc
    rcases hnum with hc | ⟨hlo, hhi⟩
    · exact absurd hc (by decide)
    · revert hlo hhi
      decide

/-- The serializer is a prefix code: a serialized value followed by a
delimiter determines the value and the rest of the input. Joint
strong-induction packaging of the value, array-items and object-fields
cases. -/
theorem ser_pfree_all : ∀ n : Nat,
    (∀ v w : JVal, sizeOf v ≤ n → ∀ r1 r2 : List Char, ser v ++ r1 = ser w ++ r2 →
      DelimNext r1 → DelimNext r2 → v = w ∧ r1 = r2) ∧
    (∀ xs ys : List JVal, sizeOf xs ≤ n → ∀ r1 r2 : List Char,
      serItems xs ++ ']' :: r1 = serItems ys ++ ']' :: r2 → xs = ys ∧ r1 = r2) ∧
    (∀ fs gs : List (String × JVal), sizeOf fs ≤ n → ∀ r1 r2 : List Char,
      serFields fs ++ '}' :: r1 = serFields gs ++ '}' :: r2 → fs = gs ∧ r1 = r2) := by
  intro n
  induction n using Nat.strong_induction_on with
  | _ n ih =>
    refine ⟨?_, ?_, ?_⟩
    · -- values
      intro v w hsz r1 r2 h hd1 hd2
      have hk : kindOf v = kindOf w := by
        cases hsv : ser v with
        | nil => exact absurd hsv (ser_ne_nil v)
        | cons c tv =>
          cases hsw : ser w with
          | nil => exact absurd hsw (ser_ne_nil w)
          | cons c2 tw =>
            rw [hsv, hsw] at h
            simp only [List.cons_append, List.cons.injEq] at h
            rw [← ser_head_kind v c tv hsv, ← ser_head_kind w c2 tw hsw, h.1]
      cases v <;> cases w <;> try (exfalso; simp only [kindOf] at hk; omega)
      · -- null / null
        refine ⟨rfl, ?_⟩
        simpa [ser] using h
      · -- bool / bool
        rename_i b1 b2
        cases b1 <;> cases b2 <;>
          first
            | (refine ⟨rfl, ?_⟩; simpa [ser] using h)
            | (exfalso; simp [ser] at h)
      · -- num / num
        rename_i n1 n2
        simp only [ser] at h
        obtain ⟨hi, hr⟩ := append_sep _ _ _ _ h (intChars_numchar n1) (intChars_numchar n2)
          (delim_not_numchar hd1) (delim_not_numchar hd2)
        exact ⟨by rw [intChars_inj hi], hr⟩
      · -- str / str
        rename_i s1 s2
        simp only [ser, quoteChars, List.cons_append, List.append_assoc,
          List.singleton_append, List.cons.injEq, true_and] at h
        obtain ⟨hdata, hr⟩ := escBody_quote_inj _ _ _ _ h
        exact ⟨by rw [String.ext hdata], hr⟩
      · -- arr / arr
        rename_i xs ys
        simp only [ser, List.cons_append, List.append_assoc, List.singleton_append,
          List.cons.injEq, true_and] at h
        have hlt : sizeOf xs < n := by
          have hs : sizeOf (JVal.jarr xs) = 1 + sizeOf xs := by simp
          omega
        obtain ⟨hxy, hr⟩ := (ih (sizeOf xs) hlt).2.1 xs ys (Nat.le_refl _) r1 r2 h
        exact ⟨by rw [hxy], hr⟩
      · -- obj / obj
        rename_i fs gs
        simp only [ser, List.cons_append, List.append_assoc, List.singleton_append,
          List.cons.injEq, true_and] at h
        have hlt : sizeOf fs < n := by
          have hs : sizeOf (JVal.jobj fs) = 1 + sizeOf fs := by simp
          omega
        obtain ⟨hfg, hr⟩ := (ih (sizeOf fs) hlt).2.2 fs gs (Nat.le_refl _) r1 r2 h
        exact ⟨by rw [hfg], hr⟩
    · -- array items
      intro xs ys hsz r1 r2 h
      cases xs with
      | nil =>
        cases ys with
        | nil => simpa [serItems] using h
        | cons y ys' =>
          exfalso
          cases hsy : ser y with
          | nil => exact ser_ne_nil y hsy
          | cons c t =>
            have hne := (ser_head_ne_delim y c t hsy).2.1
            cases ys' with
            | nil =>
              simp only [serItems, List.nil_append, hsy, List.cons_append,
                List.cons.injEq] at h
              exact hne h.1.symm
            | cons z zs =>
              simp only [serItems, List.nil_append, hsy, List.cons_append,
                List.append_assoc, List.cons.injEq] at h
              exact hne h.1.symm
      | cons x xs' =>
        cases ys with
        | nil =>
          exfalso
          cases hsx : ser x with
          | nil => exact ser_ne_nil x hsx
          | cons c t =>
            have hne := (ser_head_ne_delim x c t hsx).2.1
            cases xs' with
            | nil =>
              simp only [serItems, List.nil_append, hsx, List.cons_append,
                List.cons.injEq] at h
              exact hne h.1
            | cons z zs =>
              simp only [serItems, List.nil_append, hsx, List.cons_append,
                List.append_assoc, List.cons.injEq] at h
              exact hne h.1
        | cons y ys' =>
          have hszx : sizeOf x < n := by
            have hs : sizeOf (x :: xs') = 1 + sizeOf x + sizeOf xs' := by simp
            omega
          cases xs' with
          | nil =>
            cases ys' with
            | nil =>
              simp only [serItems] at h
              obtain ⟨hv, ht⟩ := (ih (sizeOf x) hszx).1 x y (Nat.le_refl _)
                (']' :: r1) (']' :: r2) h
                (Or.inr ⟨r1, Or.inr (Or.inl rfl)⟩) (Or.inr ⟨r2, Or.inr (Or.inl rfl)⟩)
              injection ht with _ hr
              exact ⟨by rw [hv], hr⟩
            | cons z zs =>
              exfalso
              simp only [serItems, List.cons_append, List.append_assoc] at h
              obtain ⟨hv, ht⟩ := (ih (sizeOf x) hszx).1 x y (Nat.le_refl _)
                (']' :: r1) (',' :: ' ' :: (serItems (z :: zs) ++ ']' :: r2)) h
                (Or.inr ⟨r1, Or.inr (Or.inl rfl)⟩)
                (Or.inr ⟨' ' :: (serItems (z :: zs) ++ ']' :: r2), Or.inl rfl⟩)
              injection ht with hc _
              exact absurd hc (by decide)
          | cons x2 xs2 =>
            cases ys' with
            | nil =>
              exfalso
              simp only [serItems, List.cons_append, List.append_assoc] at h
              obtain ⟨hv, ht⟩ := (ih (sizeOf x) hszx).1 x y (Nat.le_refl _)
                (',' :: ' ' :: (serItems (x2 :: xs2) ++ ']' :: r1)) (']' :: r2) h
                (Or.inr ⟨' ' :: (serItems (x2 :: xs2) ++ ']' :: r1), Or.inl rfl⟩)
                (Or.inr ⟨r2, Or.inr (Or.inl rfl)⟩)
              injection ht with hc _
              exact absurd hc (by decide)
            | cons y2 ys2 =>
              simp only [serItems, List.cons_append, List.append_assoc] at h
              obtain ⟨hv, ht⟩ := (ih (sizeOf x) hszx).1 x y (Nat.le_refl _)
                (',' :: ' ' :: (serItems (x2 :: xs2) ++ ']' :: r1))
                (',' :: ' ' :: (serItems (y2 :: ys2) ++ ']' :: r2)) h
                (Or.inr ⟨' ' :: (serItems (x2 :: xs2) ++ ']' :: r1), Or.inl rfl⟩)
                (Or.inr ⟨' ' :: (serItems (y2 :: ys2) ++ ']' :: r2), Or.inl rfl⟩)
              injection ht with _ ht2
              injection ht2 with _ ht3
              have hsz2 : sizeOf (x2 :: xs2) < n := by
                have hs1 : sizeOf (x :: x2 :: xs2) = 1 + sizeOf x + sizeOf (x2 :: xs2) := by
                  simp
                omega
              obtain ⟨hl, hr⟩ := (ih (sizeOf (x2 :: xs2)) hsz2).2.1 (x2 :: xs2) (y2 :: ys2)
                (Nat.le_refl _) r1 r2 ht3
              exact ⟨by rw [hv, hl], hr⟩
    · -- object fields
      intro fs gs hsz r1 r2 h
      cases fs with
      | nil =>
        cases gs with
        | nil => simpa [serFields] using h
        | cons q gs' =>
          exfalso
          obtain ⟨k2, v2⟩ := q
          cases gs' <;>
            simp only [serFields, serPair, quoteChars, List.nil_append, List.cons_append,
              List.append_assoc, List.cons.injEq] at h <;>
            exact absurd h.1 (by decide)
      | cons p fs' =>
        obtain ⟨k1, v1⟩ := p
        cases gs with
        | nil =>
          exfalso
          cases fs' <;>
            simp only [serFields, serPair, quoteChars, List.nil_append, List.cons_append,
              List.append_assoc, List.cons.injEq] at h <;>
            exact absurd h.1 (by decide)
        | cons q gs' =>
          obtain ⟨k2, v2⟩ := q
          have hszv : sizeOf v1 < n := by
            have hs : sizeOf ((k1, v1) :: fs') = 1 + (1 + sizeOf k1 + sizeOf v1) + sizeOf fs' := by
              simp
            omega
          cases fs' with
          | nil =>
            cases gs' with
            | nil =>
              simp only [serFields, serPair, quoteChars, List.cons_append, List.append_assoc,
                List.singleton_append, List.cons.injEq, true_and] at h
              obtain ⟨hkey, hrest⟩ := escBody_quote_inj _ _ _ _ h
              injection hrest with _ hrest2
              injection hrest2 with _ hrest3
              obtain ⟨hv, ht⟩ := (ih (sizeOf v1) hszv).1 v1 v2 (Nat.le_refl _)
                ('}' :: r1) ('}' :: r2) hrest3
                (Or.inr ⟨r1, Or.inr (Or.inr rfl)⟩) (Or.inr ⟨r2, Or.inr (Or.inr rfl)⟩)
              injection ht with _ hr
              exact ⟨by rw [String.ext hkey, hv], hr⟩
            | cons q2 gs2 =>
              exfalso
              simp only [serFields, serPair, quoteChars, List.cons_append, List.append_assoc,
                List.singleton_append, List.cons.injEq, true_and] at h
              obtain ⟨hkey, hrest⟩ := escBody_quote_inj _ _ _ _ h
              injection hrest with _ hrest2
              injection hrest2 with _ hrest3
              obtain ⟨hv, ht⟩ := (ih (sizeOf v1) hszv).1 v1 v2 (Nat.le_refl _)
                ('}' :: r1) (',' :: ' ' :: (serFields (q2 :: gs2) ++ '}' :: r2)) hrest3
                (Or.inr ⟨r1, Or.inr (Or.inr rfl)⟩)
                (Or.inr ⟨' ' :: (serFields (q2 :: gs2) ++ '}' :: r2), Or.inl rfl⟩)
              injection ht with hc _
              exact absurd hc (by decide)
          | cons p2 fs2 =>
            cases gs' with
            | nil =>
              exfalso
              simp only [serFields, serPair, quoteChars, List.cons_append, List.append_assoc,
                List.singleton_append, List.cons.injEq, true_and] at h
              obtain ⟨hkey, hrest⟩ := escBody_quote_inj _ _ _ _ h
              injection hrest with _ hrest2
              injection hrest2 with _ hrest3
              obtain ⟨hv, ht⟩ := (ih (sizeOf v1) hszv).1 v1 v2 (Nat.le_refl _)
                (',' :: ' ' :: (serFields (p2 :: fs2) ++ '}' :: r1)) ('}' :: r2) hrest3
                (Or.inr ⟨' ' :: (serFields (p2 :: fs2) ++ '}' :: r1), Or.inl rfl⟩)
                (Or.inr ⟨r2, Or.inr (Or.inr rfl)⟩)
              injection ht with hc _
              exact absurd hc (by decide)
            | cons q2 gs2 =>
              simp only [serFields, serPair, quoteChars, List.cons_append, List.append_assoc,
                List.singleton_append, List.cons.injEq, true_and] at h
              obtain ⟨hkey, hrest⟩ := escBody_quote_inj _ _ _ _ h
              injection hrest with _ hrest2
              injection hrest2 with _ hrest3
              obtain ⟨hv, ht⟩ := (ih (sizeOf v1) hszv).1 v1 v2 (Nat.le_refl _)
                (',' :: ' ' :: (serFields (p2 :: fs2) ++ '}' :: r1))
                (',' :: ' ' :: (serFields (q2 :: gs2) ++ '}' :: r2)) hrest3
                (Or.inr ⟨' ' :: (serFields (p2 :: fs2) ++ '}' :: r1), Or.inl rfl⟩)
                (Or.inr ⟨' ' :: (serFields (q2 :: gs2) ++ '}' :: r2), Or.inl rfl⟩)
              injection ht with _ ht2
              injection ht2 with _ ht3
              have hsz2 : sizeOf (p2 :: fs2) < n := by
                have hs1 : sizeOf ((k1, v1) :: p2 :: fs2) =
                    1 + (1 + sizeOf k1 + sizeOf v1) + sizeOf (p2 :: fs2) := by
                  simp
                omega
              obtain ⟨hl, hr⟩ := (ih (sizeOf (p2 :: fs2)) hsz2).2.2 (p2 :: fs2) (q2 :: gs2)
                (Nat.le_refl _) r1 r2 ht3
              exact ⟨by rw [String.ext hkey, hv, hl], hr⟩

/-- The serializer is injective. -/
theorem ser_inj {v w : JVal} (h : ser v = ser w) : v = w :=
  ((ser_pfree_all (sizeOf v)).1 v w (Nat.le_refl _) [] [] (by simpa using h)
    (Or.inl rfl) (Or.inl rfl)).1

/-- Canonicalizing fields is a map over the values. -/
theorem canonSortFields_map (fs : List (String × JVal)) :
    canonSortFields fs = fs.map (fun p => (p.1, canonSort p.2)) := by
  induction fs with
  | nil => rfl
  | cons p rest ih =>
    obtain ⟨k, v⟩ := p
    simp [canonSortFields, ih]

/-- An absent key does not occur among the mapped keys. -/
theorem keyAbsent_not_mem {k : String} {fs : List (String × JVal)}
    (h : keyAbsent k fs = true) : k ∉ fs.map Prod.fst := by
  induction fs with
  | nil => simp
  | cons p rest ih =>
    obtain ⟨k', v⟩ := p
    simp only [keyAbsent] at h
    split at h
    · cases h
    · rename_i hk
      simp only [List.map_cons, List.mem_cons]
      rintro (h2 | h2)
      · exact hk h2
      · exact ih h h2

/-- Passing `distinctKeys` means the key list has no duplicates. -/
theorem distinctKeys_nodup {fs : List (String × JVal)}
    (h : distinctKeys fs = true) : (fs.map Prod.fst).Nodup := by
  induction fs with
  | nil => simp
  | cons p rest ih =>
    obtain ⟨k, v⟩ := p
    simp only [distinctKeys, Bool.and_eq_true] at h
    simp only [List.map_cons, List.nodup_cons]
    exact ⟨keyAbsent_not_mem h.1, ih h.2⟩

/-- Passing `nodupKeysFields` is a per-value condition. -/
theorem nodupKeysFields_all {fs : List (String × JVal)} :
    nodupKeysFields fs = true ↔ ∀ p ∈ fs, nodupKeysRec p.2 = true := by
  induction fs with
  | nil => simp [nodupKeysFields]
  | cons p rest ih =>
    obtain ⟨k, v⟩ := p
    simp [nodupKeysFields, ih]

/-- Related field lists carry the same key list. -/
theorem sameMapFields_keys : ∀ {fs gs : List (String × JVal)}, SameMapFields fs gs →
    fs.map Prod.fst = gs.map Prod.fst := by
  intro fs
  induction fs with
  | nil =>
    intro gs h
    cases h
    rfl
  | cons p rest ih =>
    intro gs h
    cases h with
    | cons hv hrest => simpa using ih hrest

/-- Key-sorted canonicalization is a congruence for `SameMap` on values whose
objects have duplicate-free keys: the joint strong-induction packaging of the
value, list and field cases. -/
theorem canonSort_congr_all : ∀ n : Nat,
    (∀ v w, sizeOf v ≤ n → SameMap v w → nodupKeysRec v = true → nodupKeysRec w = true →
      canonSort v = canonSort w) ∧
    (∀ xs ys, sizeOf xs ≤ n → SameMapList xs ys → nodupKeysList xs = true →
      nodupKeysList ys = true → canonSortList xs = canonSortList ys) ∧
    (∀ fs gs, sizeOf fs ≤ n → SameMapFields fs gs → nodupKeysFields fs = true →
      nodupKeysFields gs = true → canonSortFields fs = canonSortFields gs) := by
  intro n
  induction n using Nat.strong_induction_on with
  | _ n ih =>
    refine ⟨?_, ?_, ?_⟩
    · intro v w hsz h hn1 hn2
      cases h with
      | jnull => rfl
      | jbool b => rfl
      | jnum m => rfl
      | jstr s => rfl
      | jarr hls =>
        rename_i xs ys
        have hlt : sizeOf xs < n := by
          have : sizeOf (JVal.jarr xs) = 1 + sizeOf xs := by simp
          omega
        have := (ih (sizeOf xs) hlt).2.1 xs ys (Nat.le_refl _) hls
          (by simpa [nodupKeysRec] using hn1) (by simpa [nodupKeysRec] using hn2)
        simp [canonSort, this]
      | jobj hfs hperm =>
        rename_i fs gs gs'
        have hlt : sizeOf fs < n := by
          have : sizeOf (JVal.jobj fs) = 1 + sizeOf fs := by simp
          omega
        simp only [nodupKeysRec, Bool.and_eq_true] at hn1 hn2
        have hgs'_vals : nodupKeysFields gs' = true := hn2.2
        have hgs_vals : nodupKeysFields gs = true := by
          rw [nodupKeysFields_all]
          intro p hp
          exact nodupKeysFields_all.mp hgs'_vals p (hperm.mem_iff.mp hp)
        have hf : canonSortFields fs = canonSortFields gs :=
          (ih (sizeOf fs) hlt).2.2 fs gs (Nat.le_refl _) hfs hn1.2 hgs_vals
        -- keys of gs are duplicate-free: transfer gs' backwards over the permutation
        have hkeysnd : ((canonSortFields gs).map Prod.fst).Nodup := by
          rw [canonSortFields_map, List.map_map]
          have : (gs.map Prod.fst).Nodup := by
            refine (List.Perm.nodup_iff (hperm.map Prod.fst)).mpr ?_
            exact distinctKeys_nodup hn2.1
          simpa [Function.comp] using this
        have hcperm : (canonSortFields gs).Perm (canonSortFields gs') := by
          rw [canonSortFields_map, canonSortFields_map]
          exact hperm.map _
        have hsorted :
            sortFields (canonSortFields gs) = sortFields (canonSortFields gs') := by
          apply sorted_perm_nodup_eq
          · exact (sortFields_perm _).trans (hcperm.trans (sortFields_perm _).symm)
          · exact sortFields_sorted _
          · exact sortFields_sorted _
          · refine (List.Perm.nodup_iff ((sortFields_perm _).map Prod.fst)).mpr ?_
            exact hkeysnd
        simp [canonSort, hf, hsorted]
    · intro xs ys hsz h hn1 hn2
      cases h with
      | nil => rfl
      | cons hv hrest =>
        rename_i x y xs' ys'
        have hszx : sizeOf x < n := by
          have : sizeOf (x :: xs') = 1 + sizeOf x + sizeOf xs' := by simp
          omega
        have hszxs : sizeOf xs' < n := by
          have : sizeOf (x :: xs') = 1 + sizeOf x + sizeOf xs' := by simp
          omega
        simp only [nodupKeysList, Bool.and_eq_true] at hn1 hn2
        have h1 := (ih (sizeOf x) hszx).1 x y (Nat.le_refl _) hv hn1.1 hn2.1
        have h2 := (ih (sizeOf xs') hszxs).2.1 xs' ys' (Nat.le_refl _) hrest hn1.2 hn2.2
        simp [canonSortList, h1, h2]
    · intro fs gs hsz h hn1 hn2
      cases h with
      | nil => rfl
      | cons hv hrest =>
        rename_i k v w fs' gs'
        have hszv : sizeOf v < n := by
          have : sizeOf ((k, v) :: fs') = 1 + (1 + sizeOf k + sizeOf v) + sizeOf fs' := by
            simp
          omega
        have hszfs : sizeOf fs' < n := by
          have : sizeOf ((k, v) :: fs') = 1 + (1 + sizeOf k + sizeOf v) + sizeOf fs' := by
            simp
          omega
        simp only [nodupKeysFields, Bool.and_eq_true] at hn1 hn2
        have h1 := (ih (sizeOf v) hszv).1 v w (Nat.le_refl _) hv hn1.1 hn2.1
        have h2 := (ih (sizeOf fs') hszfs).2.2 fs' gs' (Nat.le_refl _) hrest hn1.2 hn2.2
        simp [canonSortFields, h1, h2]

/-- Equal canonical JSON strings come from equal canonical values. -/
theorem jsonDumpsSorted_inj {v w : JVal} (h : jsonDumpsSorted v = jsonDumpsSorted w) :
    canonSort v = canonSort w :=
  ser_inj (congrArg String.data h)

/-- The canonical (key-sorted) shape of a log entry's dict: the six fixed
keys in sorted order. -/
theorem canonSort_entryJ (e : Entry) : canonSort (entryJ e) =
    .jobj [("hash", .jstr e.hash),
           ("input_data", canonSort e.input_data),
           ("model_id", .jstr e.model_id),
           ("prediction_output", canonSort e.prediction_output),
           ("sensitive_group", .jstr e.sensitive_group),
           ("timestamp", .jnum e.timestamp)] := rfl

/-- With an intact prefix, the failure report pins the first tampered index:
everything after it is never examined. -/
theorem reportedFailuresAux_first (pre : List Entry) (e : Entry) (post : List Entry)
    (i : Nat) (hpre : ∀ x ∈ pre, entryIntact x = true) (he : entryIntact e = false) :
    reportedFailuresAux i (pre ++ e :: post) = [i + pre.length] := by
  induction pre generalizing i with
  | nil => simp [reportedFailuresAux, he]
  | cons x rest ih =>
    have hx : entryIntact x = true := hpre x (List.mem_cons_self x rest)
    have hrest : ∀ y ∈ rest, entryIntact y = true := fun y hy =>
      hpre y (List.mem_cons_of_mem x hy)
    simp only [List.cons_append, reportedFailuresAux, hx, if_true]
    show reportedFailuresAux (i + 1) (rest ++ e :: post) = [i + (x :: rest).length]
    rw [ih (i + 1) hrest]
    simp
    omega

/-- With an intact prefix, the hash-check loop returns `False` as soon as it
hits the tampered entry. -/
theorem hashCheckLoop_fst_false (pre : List Entry) (e : Entry) (post : List Entry)
    (hpre : ∀ x ∈ pre, entryIntact x = true) (he : entryIntact e = false) :
    (hashCheckLoop (pre ++ e :: post)).1 = false := by
  induction pre with
  | nil =>
    have he' : ¬ e.hash = entryHash { e with hash := "" } := by
      simpa [entryIntact] using he
    simp [hashCheckLoop, he']
  | cons x rest ih =>
    have hx : x.hash = entryHash { x with hash := "" } := by
      have := hpre x (List.mem_cons_self x rest)
      simpa [entryIntact] using this
    have hrest : ∀ y ∈ rest, entryIntact y = true := fun y hy =>
      hpre y (List.mem_cons_of_mem x hy)
    simp only [List.cons_append, hashCheckLoop, hx, if_true]
    simpa using ih hrest

/-! # Claims -/

/-- C10: the module cannot be loaded at all — `run_drift_check`'s annotation
references `List`, which the module never imports (only `Dict` and `Any` come
from `typing`), so executing the class body raises `NameError` and no public
operation of the program is ever reachable. -/
theorem claim_C10_module_load_fails :
    loadModule = Except.error (PyErr.nameError "List") ∧
      ∀ u, loadModule ≠ Except.ok u := by
  refine ⟨rfl, ?_⟩
  intro u h
  cases u
  exact Except.noConfusion
    (show Except.error (PyErr.nameError "List") = (Except.ok () : Except PyErr Unit) from h)

/-- C5 counterexample: calling `log_prediction` with an empty
`sensitive_group` does not fail with a `ValidationError` — the record is
appended anyway (store grows from 0 to 1 records, and the stored record
carries the empty group). -/
theorem claim_C5_counterexample :
    ((logPrediction (initLogger "CreditScoreV1") 0 (.jobj []) (.jnum 1) "").1.audit_log.length = 1 ∧
      ((logPrediction (initLogger "CreditScoreV1") 0 (.jobj []) (.jnum 1) "").2).sensitive_group = "") := by
  constructor <;> rfl

/-- C5 amended: `log_prediction` performs no input validation and never
fails: for every input — the empty `sensitive_group` included — it appends
exactly one record to the audit log (no `ValidationError` exists in the
module). -/
theorem claim_C5_amended (st : LoggerState) (now : Int) (inp pred : JVal) (grp : String) :
    (logPrediction st now inp pred grp).1.audit_log =
      st.audit_log ++ [(logPrediction st now inp pred grp).2] := rfl

/-- C6 counterexample: appending a record whose timestamp (3) is strictly
earlier than the last appended record's timestamp (5) does not fail with an
`OrderingError`: both records end up stored, out of timestamp order. -/
theorem claim_C6_counterexample :
    ((logPrediction (logPrediction (initLogger "m") 5 (.jobj []) (.jnum 1) "A").1
        3 (.jobj []) (.jnum 0) "A").1.audit_log.map Entry.timestamp) = [5, 3] := by
  rfl

/-- C6 amended: `log_prediction` has no timestamp-monotonicity guard: even
when the clock reading is strictly earlier than the last stored record's
timestamp, the append succeeds and stores the record (no `OrderingError`
exists in the module). -/
theorem claim_C6_amended (st : LoggerState) (now : Int) (inp pred : JVal)
    (grp : String) (e : Entry) (hlast : st.audit_log.getLast? = some e)
    (hearlier : now < e.timestamp) :
    (logPrediction st now inp pred grp).1.audit_log =
      st.audit_log ++ [(logPrediction st now inp pred grp).2] := rfl

/-- C6 amended witness at a concrete input: a store whose last record has
timestamp 5, appended to at clock reading 3. -/
theorem claim_C6_amended_witness :
    ((logPrediction (logPrediction (initLogger "m") 5 (.jobj []) (.jnum 1) "A").1
        3 (.jobj []) (.jnum 0) "A").1.audit_log =
      (logPrediction (initLogger "m") 5 (.jobj []) (.jnum 1) "A").1.audit_log ++
        [(logPrediction (logPrediction (initLogger "m") 5 (.jobj []) (.jnum 1) "A").1
          3 (.jobj []) (.jnum 0) "A").2]) :=
  claim_C6_amended (logPrediction (initLogger "m") 5 (.jobj []) (.jnum 1) "A").1
    3 (.jobj []) (.jnum 0) "A"
    ((logPrediction (initLogger "m") 5 (.jobj []) (.jnum 1) "A").2)
    (by rfl) (by decide)

/-- C9: append-only — every operation of the core extends the audit log at
the end, leaving the prior record sequence an unchanged prefix; no operation
updates or removes a stored record. -/
theorem claim_C9_append_only (st : LoggerState) (op : CoreOp) :
    ∃ tail, (applyOp st op).audit_log = st.audit_log ++ tail ∧
      (∀ now inp pred grp, op = .logPred now inp pred grp →
        tail = [(logPrediction st now inp pred grp).2]) := by
  cases op with
  | logPred now inp pred grp =>
    refine ⟨[(logPrediction st now inp pred grp).2], rfl, ?_⟩
    intro now' inp' pred' grp' h
    cases h
    rfl
  | driftCheck =>
    refine ⟨[], by simp [applyOp, runDriftCheck_snd], ?_⟩
    intro _ _ _ _ h
    cases h

/-- C8: verification is read-only and idempotent — `run_drift_check` hands
back the store exactly as it found it (the hash is cleared only on
`entry_copy`), and running it a second time on the store it leaves behind
gives the same result. -/
theorem claim_C8_readonly_idempotent (logs : List Entry) :
    (runDriftCheck logs).2 = logs ∧
      runDriftCheck ((runDriftCheck logs).2) = runDriftCheck logs := by
  refine ⟨runDriftCheck_snd logs, ?_⟩
  rw [runDriftCheck_snd]

/-- C2: the record `log_prediction` appends satisfies the hash invariant by
construction — its stored hash equals the digest of the canonical
serialization of the record with the hash field cleared to `""` — and every
record in a store produced by any run of core operations satisfies that
invariant. -/
theorem claim_C2_hash_invariant :
    (∀ (st : LoggerState) (now : Int) (inp pred : JVal) (grp : String),
      (logPrediction st now inp pred grp).2.hash =
        entryHash { (logPrediction st now inp pred grp).2 with hash := "" }) ∧
    (∀ (model_id : String) (ops : List CoreOp),
      ∀ e ∈ (runOps model_id ops).audit_log, e.hash = entryHash { e with hash := "" }) := by
  constructor
  · intro st now inp pred grp
    rfl
  · intro model_id ops e he
    exact storeInv_runOps model_id ops e he

/-- C3: sealing is deterministic — two field mappings holding identical
key-to-value pairs, in any insertion order and at any nesting depth (keys
distinct, as in every Python dict), receive the same digest from
`_generate_verifiable_hash`. -/
theorem claim_C3_seal_deterministic (v w : JVal) (h : SameMap v w)
    (hn1 : nodupKeysRec v = true) (hn2 : nodupKeysRec w = true) :
    generateVerifiableHash v = generateVerifiableHash w := by
  have hc := (canonSort_congr_all (sizeOf v)).1 v w (Nat.le_refl _) h hn1 hn2
  simp [generateVerifiableHash, jsonDumpsSorted, sha256Hex, hc]

/-- C3 witness: the spec's example — the same four fields with a reordered
nested `input_data` and a reordered outer mapping seal to identical
digests. -/
theorem claim_C3_seal_deterministic_witness :
    generateVerifiableHash sealExampleA = generateVerifiableHash sealExampleB :=
  claim_C3_seal_deterministic sealExampleA sealExampleB
    (SameMap.jobj
      (SameMapFields.cons (SameMap.jstr "m1")
        (SameMapFields.cons
          (SameMap.jobj
            (SameMapFields.cons (SameMap.jnum 1)
              (SameMapFields.cons (SameMap.jnum 2) SameMapFields.nil))
            (List.Perm.swap ("b", JVal.jnum 2) ("a", JVal.jnum 1) []))
          (SameMapFields.cons (SameMap.jnum 1)
            (SameMapFields.cons (SameMap.jstr "A") SameMapFields.nil))))
      ((List.Perm.swap ("input_data", JVal.jobj [("b", JVal.jnum 2), ("a", JVal.jnum 1)])
          ("subject_id", JVal.jstr "m1")
          [("prediction_output", JVal.jnum 1), ("sensitive_group", JVal.jstr "A")]).trans
        (List.Perm.cons _ (List.Perm.cons _
          (List.Perm.swap ("sensitive_group", JVal.jstr "A")
            ("prediction_output", JVal.jnum 1) [])))))
    (by decide) (by decide)

/-- C1 counterexample: with the records at indices 0 and 1 both tampered, one
`run_drift_check` call reports a mismatch only for index 0 — the loop
`return False` on the first failure hides the second mismatch instead of
reporting both. -/
theorem claim_C1_counterexample :
    entryIntact tamperedC1a = false ∧ entryIntact tamperedC1b = false ∧
      reportedFailures [tamperedC1a, tamperedC1b] = [0] ∧
      1 ∉ reportedFailures [tamperedC1a, tamperedC1b] := by
  decide

/-- C1 amended: the hash check of `run_drift_check` short-circuits — with
every record before index `i` intact and the record at `i` tampered, one call
reports a mismatch only for index `i` and returns `False` without evaluating
any later record (a mismatch after `i` goes unreported). -/
theorem claim_C1_amended (pre : List Entry) (e : Entry) (post : List Entry)
    (hpre : ∀ x ∈ pre, entryIntact x = true) (he : entryIntact e = false) :
    reportedFailures (pre ++ e :: post) = [pre.length] ∧
      (runDriftCheck (pre ++ e :: post)).1 = .integrityFailure := by
  have h1 := reportedFailuresAux_first pre e post 0 hpre he
  rw [Nat.zero_add] at h1
  refine ⟨h1, ?_⟩
  simp only [runDriftCheck]
  rw [show hashCheckLoop (pre ++ e :: post) =
    (false, pre ++ e :: post) from
    Prod.ext (hashCheckLoop_fst_false pre e post hpre he) (hashCheckLoop_snd _)]
  simp

/-- C1 amended witness: one intact record, then two tampered ones — the
report names index 1 only. -/
theorem claim_C1_amended_witness :
    reportedFailures ([sealedC1] ++ tamperedC1a :: [tamperedC1b]) = [[sealedC1].length] ∧
      (runDriftCheck ([sealedC1] ++ tamperedC1a :: [tamperedC1b])).1 = .integrityFailure :=
  claim_C1_amended [sealedC1] tamperedC1a [tamperedC1b] (by decide) (by decide)

/-- C7: tamper sensitivity — for a sealed record, any change to a single
payload field (values compared as canonical mappings) changes the canonical
serialization of the hash-cleared record, hence the recomputed digest no
longer matches the kept hash, the record fails the integrity comparison, and
a verification pass over a store whose earlier records are intact reports
that record's index; any change to the stored hash field itself is likewise
caught. -/
theorem claim_C7_tamper_sensitivity (e e' : Entry)
    (hsealed : e.hash = entryHash { e with hash := "" })
    (hkeep : e'.hash = e.hash)
    (hchange : OneFieldChanged e e') :
    jsonDumpsSorted (entryJ { e' with hash := "" }) ≠
        jsonDumpsSorted (entryJ { e with hash := "" }) ∧
      entryHash { e' with hash := "" } ≠ e'.hash ∧
      entryIntact e' = false ∧
      (∀ h2, h2 ≠ e.hash → entryIntact { e with hash := h2 } = false) ∧
      (∀ pre post, (∀ x ∈ pre, entryIntact x = true) →
        reportedFailures (pre ++ e' :: post) = [pre.length]) := by
  have hne : jsonDumpsSorted (entryJ { e' with hash := "" }) ≠
      jsonDumpsSorted (entryJ { e with hash := "" }) := by
    intro heq
    have hcanon := jsonDumpsSorted_inj heq
    rw [canonSort_entryJ, canonSort_entryJ] at hcanon
    simp only [JVal.jobj.injEq, List.cons.injEq, Prod.mk.injEq, JVal.jstr.injEq,
      JVal.jnum.injEq, true_and, and_true] at hcanon
    obtain ⟨hinp, hmid, hpred, hgrp, hts⟩ := hcanon
    rcases hchange with ⟨h5, _⟩ | ⟨_, h5, _⟩ | ⟨_, _, h5, _⟩ | ⟨_, _, _, h5, _⟩ |
      ⟨_, _, _, _, h5⟩ <;> exact h5 (by assumption)
  have hdig : entryHash { e' with hash := "" } ≠ e'.hash := by
    rw [hkeep, hsealed]
    exact hne
  have hfail : entryIntact e' = false := by
    simp only [entryIntact]
    exact decide_eq_false (fun hh => hdig hh.symm)
  refine ⟨hne, hdig, hfail, ?_, ?_⟩
  · intro h2 hne2
    simp only [entryIntact]
    refine decide_eq_false (fun hh => ?_)
    rw [← hsealed] at hh
    exact hne2 hh
  · intro pre post hpre
    have h1 := reportedFailuresAux_first pre e' post 0 hpre hfail
    rw [Nat.zero_add] at h1
    exact h1

/-- C7 witness: the sealed demo record with its prediction overwritten from 1
to 7 fails the integrity comparison, and a pass over the store holding the
intact record followed by the tampered one reports index 1. -/
theorem claim_C7_tamper_sensitivity_witness :
    entryIntact tamperedC1a = false ∧
      reportedFailures ([sealedC1] ++ tamperedC1a :: []) = [[sealedC1].length] := by
  have happ := claim_C7_tamper_sensitivity sealedC1 tamperedC1a rfl rfl
    (Or.inr (Or.inr (Or.inr (Or.inl ⟨rfl, rfl, rfl,
      show (JVal.jnum 7 : JVal) ≠ JVal.jnum 1 by
        intro hq
        injection hq with hq2
        exact absurd hq2 (by decide), rfl⟩))))
  exact ⟨happ.2.2.1, happ.2.2.2.2 [sealedC1] [] (by decide)⟩

/-- C4: when the integrity pass succeeds, `run_drift_check` reports the
prediction-count summary, and every counter in it equals the manual tally of
records grouped by `(sensitive_group, str(prediction_output))`; in
particular, the spec's example — groups A (1, 0) and B (1, 0, 1) — yields
`{A: {"1": 1, "0": 1}, B: {"1": 2, "0": 1}}`. -/
theorem claim_C4_drift_tally :
    (∀ logs : List Entry, (hashCheckLoop logs).1 = true → ∀ g k : String,
      (runDriftCheck logs).1 = .report (driftSummary logs) ∧
        summaryCount (driftSummary logs) g k = tallyCount logs g k) ∧
    driftSummary demoLogsC4 = [("A", [("1", 1), ("0", 1)]), ("B", [("1", 2), ("0", 1)])] := by
  constructor
  · intro logs h g k
    constructor
    · simp only [runDriftCheck]
      rw [show hashCheckLoop logs = (true, logs) from
        Prod.ext h (hashCheckLoop_snd logs)]
      simp
    · have h0 : summaryCount [] g k = 0 := rfl
      have := summaryCount_driftLoop logs [] g k
      rw [h0, Nat.zero_add] at this
      simpa [driftSummary] using this
  · decide

/-- C4 witness: the general part applied to the example records, group A,
prediction key "1" (the hash check passes there: the records are sealed). -/
theorem claim_C4_drift_tally_witness :
    (runDriftCheck demoLogsC4).1 = .report (driftSummary demoLogsC4) ∧
      summaryCount (driftSummary demoLogsC4) "A" "1" = tallyCount demoLogsC4 "A" "1" :=
  claim_C4_drift_tally.1 demoLogsC4 (by decide) "A" "1"

/-- C2 witness: the invariant, read off a concrete one-record store. -/
theorem claim_C2_hash_invariant_witness :
    ((logPrediction (initLogger "m") 0 (.jobj []) (.jnum 1) "A").2 ∈
        (runOps "m" [.logPred 0 (.jobj []) (.jnum 1) "A"]).audit_log ∧
      ((logPrediction (initLogger "m") 0 (.jobj []) (.jnum 1) "A").2).hash =
        entryHash { (logPrediction (initLogger "m") 0 (.jobj []) (.jnum 1) "A").2 with hash := "" }) :=
  ⟨List.Mem.head _, claim_C2_hash_invariant.2 "m" [.logPred 0 (.jobj []) (.jnum 1) "A"]
    (logPrediction (initLogger "m") 0 (.jobj []) (.jnum 1) "A").2 (List.Mem.head _)⟩

end EthosGuard
